import Mathlib

/-!
Verification of the pyEliasFano library (resc2801/pyEliasFano) against its
natural-language specification.

The Python sources are shallowly embedded as Lean functions over `ℕ` and
`List ℕ`:

* Python `int.bit_length()` is `Nat.size` (both send `0` to `0`).
* `math.ceil(math.log2 n)` (over exact reals) is `Nat.clog 2 n`.
* `max(0, math.floor(math.log2 (u / n)))` (exact reals) is `Nat.log 2 (u / n)`
  with truncating natural division: for `u, n > 0` and any integer `k ≥ 0`,
  `2^k ≤ u/n` over ℝ iff `2^k ≤ u/n` in truncated division, and the `max 0`
  clamp corresponds to `Nat.log 2 0 = Nat.log 2 (u/n) = 0` when `u < n`.
  (CPython evaluates these through floats; we model the exact value.)
* Fallible Python code (raising `IndexError`, `ValueError`, `KeyError`,
  `TypeError`, `ZeroDivisionError`) is embedded in `Option`, with `none`
  for "an exception propagates to the caller".
* Lazy iterator pipelines (`filter`, `locate`, `islice`, `chain`,
  `accumulate`, `groupby`) are embedded as the lists they yield; where a
  pipeline can raise while being consumed (e.g. indexing into a list inside
  a `filter`), the embedding is `Option`-valued as well.
-/

namespace PyEF

/-- Indices of the elements of `l` satisfying `p` (more_itertools.locate). -/
def locate (p : ℕ → Bool) (l : List ℕ) : List ℕ :=
  (List.range l.length).filter (fun i => p (l.getD i 0))

/-- Python `range(a, b)` as a list (empty when `b ≤ a`). -/
def pyRange (a b : ℕ) : List ℕ :=
  List.range' a (b - a)

/-- Python `itertools.islice(l, a, b)`: the elements of `l` at indices
`[a, b)`. -/
def islice (l : List ℕ) (a b : ℕ) : List ℕ :=
  (l.drop a).take (b - a)

/-- Running sums starting from accumulator `acc` (helper for `accumulate`). -/
def accumulateFrom (acc : ℕ) : List ℕ → List ℕ
  | [] => []
  | x :: xs => (acc + x) :: accumulateFrom (acc + x) xs

/-- Python `itertools.accumulate(l)`: the list of running sums of `l`. -/
def accumulate (l : List ℕ) : List ℕ :=
  accumulateFrom 0 l

/-- Fuel-driven halving loop behind `pyBitLength`.  The value halves every
step, so fuel `n` is always enough; the fuel only makes the recursion
structural (hence kernel-computable, unlike `Nat.size`). -/
def bitLenFuel : ℕ → ℕ → ℕ
  | 0, _ => 0
  | fuel + 1, n => if n = 0 then 0 else bitLenFuel fuel (n / 2) + 1

/-- Python `int.bit_length()` (note `(0).bit_length() == 0`); proved equal
to `Nat.size` below. -/
def pyBitLength (x : ℕ) : ℕ := bitLenFuel x x

/-- Fuel-driven loop behind `pyClog2`. -/
def clog2Fuel : ℕ → ℕ → ℕ
  | 0, _ => 0
  | fuel + 1, n => if n ≤ 1 then 0 else clog2Fuel fuel ((n + 1) / 2) + 1

/-- `math.ceil(math.log2 n)` over exact reals, i.e. `⌈log₂ n⌉`; proved
equal to `Nat.clog 2` below. -/
def pyClog2 (n : ℕ) : ℕ := clog2Fuel n n

/-- Fuel-driven loop behind `pyLog2`. -/
def log2Fuel : ℕ → ℕ → ℕ
  | 0, _ => 0
  | fuel + 1, n => if n ≤ 1 then 0 else log2Fuel fuel (n / 2) + 1

/-- `⌊log₂ n⌋` (with value `0` at `0`); proved equal to `Nat.log 2` below.
Used for `max(0, math.floor(math.log2(u / n)))` composed with truncating
division, and for `int(math.log2(u))` on the power of two `u`. -/
def pyLog2 (n : ℕ) : ℕ := log2Fuel n n

/-- An Elias-Fano structure, mirroring the attributes set by
`EliasFano.__init__` / `EliasFano._encode` (src/pyEliasFano/EliasFano.py). -/
structure EliasFano where
  n : ℕ
  u : ℕ
  upper_bits : ℕ
  lower_bits : ℕ
  inferiors : List ℕ
  superiors : List ℕ
  superiors_prefixSums : List ℕ
  deriving Repr, DecidableEq

namespace EliasFano

/-- The `_encode` computation of `self._superiors` (EliasFano.py lines
183-190): a histogram over `2 ** upper_bits` buckets of the upper halves
`x >> lower_bits`.  Python writes `self._superiors[superior] = count` for
each distinct upper half, which raises `IndexError` (= `none`) when some
upper half is `≥ 2 ** upper_bits`; the resulting array is the same whatever
the order of the `Counter` items.  When `upper_bits == 0` the histogram is
left as the empty list. -/
def encodeSuperiors (lower_bits upper_bits : ℕ) (xs : List ℕ) : Option (List ℕ) :=
  if upper_bits = 0 then some []
  else if xs.all (fun x => x >>> lower_bits < 2 ^ upper_bits) then
    some ((List.range (2 ^ upper_bits)).map
      (fun s => xs.countP (fun x => x >>> lower_bits == s)))
  else none

/-- `EliasFano.__init__` together with `_encode`.  `sorted_integers[-1]` on
an empty list raises `IndexError`, hence `none` on `[]`.  No sortedness
check is performed by the source. -/
def ofList (xs : List ℕ) : Option EliasFano :=
  match xs.getLast? with
  | none => none
  | some last =>
    let n := xs.length
    let u := 2 ^ max 1 (pyBitLength last)
    let upper_bits := pyClog2 n
    let lower_bits := pyLog2 (u / n)
    let inferiors := if 0 < lower_bits then xs.map (fun x => x % 2 ^ lower_bits) else []
    match encodeSuperiors lower_bits upper_bits xs with
    | none => none
    | some superiors =>
      some ⟨n, u, upper_bits, lower_bits, inferiors, superiors, accumulate superiors⟩

/-- `EliasFano.select` (lines 47-62).  `nth(iter(self._inferiors), k, 0)`
is `getD k 0`; `first(locate(iter(self._superiors_prefixSums), cnt > k), 0)`
is `findIdx?` with default `0`. -/
def select (ef : EliasFano) (k : ℕ) : Option ℕ :=
  if k < ef.n then
    let inferior := ef.inferiors.getD k 0
    let superior := (ef.superiors_prefixSums.findIdx? (fun cnt => k < cnt)).getD 0
    some ((superior <<< ef.lower_bits) ||| inferior)
  else none

/-- `EliasFano.rank` (lines 64-85).  Returns the list of indices Python
would produce (the `locate` branch yields a lazy iterator of the same
indices).  `self._superiors_prefixSums[sup_x]` raises `IndexError` when
`sup_x` is out of range, and the final `raise ValueError` is reached when
both bit widths are zero; both are `none`. -/
def rank (ef : EliasFano) (x : ℕ) : Option (List ℕ) :=
  let sup_x := x >>> ef.lower_bits
  let inf_x := x &&& (2 ^ ef.lower_bits - 1)
  if 0 < ef.upper_bits then
    match ef.superiors_prefixSums[sup_x]?, ef.superiors[sup_x]? with
    | some p, some s =>
      let inferior_range := pyRange (p - s) p
      if 0 < ef.lower_bits then
        some (inferior_range.filter (fun i => ef.inferiors.getD i 0 == inf_x))
      else
        some inferior_range
    | _, _ => none
  else
    if 0 < ef.lower_bits then
      some (locate (fun inf => inf == inf_x) ef.inferiors)
    else none

/-- Helper for `nextGEQ`: Python's
`first(filter(lambda i: self._inferiors[i] >= inf_x, inferior_range), default)`
evaluated on the index list `inferior_range`.  The subscript
`self._inferiors[i]` raises `IndexError` when `i` is out of range (outer
`none`); the inner `Option` is the found index (or `none` for "exhausted,
use the default"). -/
def firstIdxGEQ (infs : List ℕ) (v : ℕ) : List ℕ → Option (Option ℕ)
  | [] => some none
  | i :: rest =>
    match infs[i]? with
    | none => none
    | some w => if v ≤ w then some (some i) else firstIdxGEQ infs v rest

/-- `EliasFano.nextGEQ` (lines 87-108). -/
def nextGEQ (ef : EliasFano) (x : ℕ) : Option ℕ :=
  match ef.select (ef.n - 1) with
  | none => none
  | some last =>
    if last < x then none
    else
      match ef.select 0 with
      | none => none
      | some first0 =>
        if x ≤ first0 then some first0
        else
          let sup_x := x >>> ef.lower_bits
          let inf_x := x &&& (2 ^ ef.lower_bits - 1)
          match ef.superiors_prefixSums[sup_x]?, ef.superiors[sup_x]? with
          | some p, some s =>
            match firstIdxGEQ ef.inferiors inf_x (pyRange (p - s) p) with
            | none => none
            | some found =>
              let k := min (found.getD ef.n) p
              ef.select k
          | _, _ => none

/-- `EliasFano.nextLEQ` (lines 110-125).  `first(self.rank(...))` on an
empty iterable raises `ValueError`; `max(0, j - 1)` coincides with natural
subtraction. -/
def nextLEQ (ef : EliasFano) (x : ℕ) : Option ℕ :=
  match ef.select 0 with
  | none => none
  | some first0 =>
    if x < first0 then none
    else
      match ef.select (ef.n - 1) with
      | none => none
      | some last =>
        if last ≤ x then some last
        else
          match ef.nextGEQ x with
          | none => none
          | some g =>
            if x = g then some x
            else
              match ef.rank g with
              | none => none
              | some idxs =>
                match idxs.head? with
                | none => none
                | some j => ef.select (max 0 (j - 1))

/-- `EliasFano.match` (lines 127-156), as the list of yielded elements.
All indexing performed by this method stays in range for structures built
by `ofList` (`locate` only yields indices below `len(self._superiors)` and
`islice` is clamping), so the pipeline is total. -/
def match' (ef : EliasFano) (value ignore : ℕ) : List ℕ :=
  let sup_value := value >>> ef.lower_bits
  let inf_value := value &&& (2 ^ ef.lower_bits - 1)
  let sup_ignore := ignore >>> ef.lower_bits
  let inf_ignore := ignore &&& (2 ^ ef.lower_bits - 1)
  if 0 < ef.upper_bits then
    let sup_matches := (locate (fun cnt => 0 < cnt) ef.superiors).filter
      (fun idx => idx &&& sup_ignore == sup_value &&& sup_ignore)
    (sup_matches.map (fun s =>
      let p := ef.superiors_prefixSums.getD s 0
      let c := ef.superiors.getD s 0
      ((islice ef.inferiors (p - c) p).filter
        (fun inf => inf &&& inf_ignore == inf_value &&& inf_ignore)).map
        (fun inf => (s <<< ef.lower_bits) + inf))).flatten
  else
    ef.inferiors.filter (fun low => low &&& inf_ignore == inf_value &&& inf_ignore)

/-- Helper for `__iter__`: the buckets listed in `idxs` are walked in order,
each one consuming `superiors[idx]` elements of the shared iterator over
`self._inferiors` (lines 223-227). -/
def iterChunks (superiors : List ℕ) (lower_bits : ℕ) : List ℕ → List ℕ → List ℕ
  | _, [] => []
  | infs, idx :: rest =>
    let c := superiors.getD idx 0
    ((infs.take c).map (fun inf => (idx <<< lower_bits) + inf)) ++
      iterChunks superiors lower_bits (infs.drop c) rest

/-- `EliasFano.__iter__` (lines 215-234), as the finite list of yielded
elements; the `ValueError("Empty index!")` branch is `none`. -/
def iter (ef : EliasFano) : Option (List ℕ) :=
  if 0 < ef.upper_bits then
    if 0 < ef.lower_bits then
      some (iterChunks ef.superiors ef.lower_bits ef.inferiors
        (locate (fun cnt => 0 < cnt) ef.superiors))
    else
      some ((locate (fun cnt => 0 < cnt) ef.superiors).map
        (fun sup => sup <<< ef.lower_bits))
  else
    if 0 < ef.lower_bits then some ef.inferiors
    else none

/-- `EliasFano.bit_length` (lines 158-162). -/
def bit_length (ef : EliasFano) : ℕ :=
  (ef.superiors.map (fun ones => ones + 1)).sum + ef.lower_bits * ef.inferiors.length

/-- `EliasFano.compression_ratio` (lines 164-168), over ℚ.  The numerator
`self._n * math.log2(self._u)` is exact in Python because `_u` is always a
power of two. -/
def compression_ratio (ef : EliasFano) : ℚ :=
  (ef.n * pyLog2 ef.u : ℚ) / (ef.bit_length : ℚ)

/-- `EliasFano.__len__` (lines 209-213). -/
def len (ef : EliasFano) : ℕ := ef.n

end EliasFano

/-- Big-endian value of a bit string: `int(s, 2)` for a binary string `s`. -/
def bitsToNat (bs : List Bool) : ℕ :=
  bs.foldl (fun acc b => 2 * acc + b.toNat) 0

/-- Big-endian fixed-width binary string of `x`: `("{0:0%db}" % width).format(x)`.
Python pads with leading zeros up to `width` and never truncates; the
embedding is used only where `x < 2 ^ width` holds, where the two agree. -/
def natToBits : (width : ℕ) → (x : ℕ) → List Bool
  | 0, _ => []
  | w + 1, x => natToBits w (x / 2) ++ [decide (x % 2 = 1)]

/-- Split a list into maximal runs separated by `false` elements
(`more_itertools.split_at(bits, lambda v: v == '0', keep_separator=False)`):
one (possibly empty) piece before every `false` plus the trailing piece. -/
def splitAtFalse : List Bool → List (List Bool)
  | [] => [[]]
  | false :: rest => [] :: splitAtFalse rest
  | true :: rest =>
    match splitAtFalse rest with
    | [] => [[true]]
    | g :: gs => (true :: g) :: gs

/-- Fuel-driven loop behind `chunkList`; every step removes at least
`sz ≥ 1` elements, so fuel `l.length` is always enough (the fuel keeps the
recursion structural, hence kernel-computable). -/
def chunkFuel {α : Type} (sz : ℕ) : ℕ → List α → List (List α)
  | 0, _ => []
  | _ + 1, [] => []
  | fuel + 1, x :: xs =>
    (x :: xs).take sz :: chunkFuel sz fuel ((x :: xs).drop sz)

/-- Consecutive chunks of size `sz` (`[l[i:i+sz] for i in range(0, len(l), sz)]`,
also `more_itertools.windowed(l, sz, step=sz)` when `sz` divides the length).
The callers guard `sz = 0` (Python raises there). -/
def chunkList {α : Type} (sz : ℕ) (l : List α) : List (List α) :=
  if sz = 0 then [] else chunkFuel sz l.length l

/-- The serialized form produced by `EliasFano.to_bytes` (lines 236-277),
modelled field-wise.  The byte stream is `uvarint(kind) uvarint(n)
uvarint(lower_bits) uvarint(upper_bits) uvarint(inferiors_byte_count)
uvarint(superiors_byte_count)` followed by the two payload integers in
little-endian using exactly the recorded byte counts; uvarint coding and
fixed-length little-endian integer coding are exact inverses, so the blob
is determined by (and determines) these eight fields. -/
structure EFBlob where
  kind : ℕ
  n : ℕ
  lower_bits : ℕ
  upper_bits : ℕ
  inferiors_byte_count : ℕ
  superiors_byte_count : ℕ
  inferiors_bits : ℕ
  superiors_bits : ℕ
  deriving Repr, DecidableEq

namespace EliasFano

/-- `EliasFano.to_bytes` (lines 236-277).  `inferiors_bits` is
`int("".join(fixed-width reprs), 2)`; `superiors_bits` is
`int("".join("1"*c + "0" per bucket), 2)`; each byte count is
`max(1, ceil(bit_length / 8))` when the corresponding list is non-empty and
`0` otherwise (`math.ceil(v / 8.0)` is exact as `(v + 7) / 8`).  When a
byte count is `0` no payload is written; the stored integer field is then
irrelevant and set to `0`. -/
def to_bytes (ef : EliasFano) : EFBlob :=
  let inferiors_bits :=
    bitsToNat ((ef.inferiors.map (fun inf => natToBits ef.lower_bits inf)).flatten)
  let inferiors_byte_count :=
    if ef.inferiors.isEmpty then 0 else max 1 ((pyBitLength inferiors_bits + 7) / 8)
  let superiors_bits :=
    bitsToNat ((ef.superiors.map (fun sup => List.replicate sup true ++ [false])).flatten)
  let superiors_byte_count :=
    if ef.superiors.isEmpty then 0 else max 1 ((pyBitLength superiors_bits + 7) / 8)
  { kind := 0
    n := ef.n
    lower_bits := ef.lower_bits
    upper_bits := ef.upper_bits
    inferiors_byte_count := inferiors_byte_count
    superiors_byte_count := superiors_byte_count
    inferiors_bits := if ef.inferiors.isEmpty then 0 else inferiors_bits
    superiors_bits := if ef.superiors.isEmpty then 0 else superiors_bits }

/-- `EliasFano.from_bytes` (lines 279-325).  A non-zero kind raises
(`none`); the lower payload is re-padded to `n * lower_bits` bits and cut
into `lower_bits`-wide windows; the upper payload is re-padded to
`n + 2 ** upper_bits` bits and split at `0` bits, dropping the trailing
piece; the universe is reconstructed as `2 ** max(1, lower_bits + upper_bits)`. -/
def from_bytes (blob : EFBlob) : Option EliasFano :=
  if blob.kind ≠ 0 then none
  else
    let inferiors :=
      if blob.inferiors_byte_count ≠ 0 then
        (chunkList blob.lower_bits
          (natToBits (blob.n * blob.lower_bits) blob.inferiors_bits)).map bitsToNat
      else []
    let superiors :=
      if blob.superiors_byte_count ≠ 0 then
        ((splitAtFalse
          (natToBits (blob.n + 2 ^ blob.upper_bits) blob.superiors_bits)).map
            List.length).dropLast
      else []
    some
      { n := blob.n
        u := 2 ^ max 1 (blob.lower_bits + blob.upper_bits)
        upper_bits := blob.upper_bits
        lower_bits := blob.lower_bits
        inferiors := inferiors
        superiors := superiors
        superiors_prefixSums :=
          if blob.superiors_byte_count ≠ 0 then accumulate superiors else [] }

end EliasFano

/-- A uniformly partitioned Elias-Fano structure, mirroring the attributes
set by `UniformlyPartitionedEliasFano.__init__`
(src/pyEliasFano/UniformlyPartitionedEliasFano.py).  The second level is a
dict `{0: EF(chunk 0), 1: EF(chunk 1), ...}`, embedded as the list of its
values in key order. -/
structure UPEF where
  n : ℕ
  u : ℕ
  b : ℕ
  level_1 : EliasFano
  level_2 : List EliasFano
  deriving Repr, DecidableEq

namespace UPEF

/-- `UniformlyPartitionedEliasFano.__init__` (lines 24-50).  `numbers[-1]`
raises on an empty list; `range(0, len, 0)` raises `ValueError` when
`b == 0`; each chunk is rewritten relative to its first element and both
levels are Elias-Fano encoded. -/
def ofList (numbers : List ℕ) (b : ℕ) : Option UPEF :=
  match numbers.getLast? with
  | none => none
  | some last =>
    if b = 0 then none
    else
      let chunks := chunkList b numbers
      let L := chunks.map (fun chunk => chunk.getD 0 0)
      let residuals := (chunks.zip L).map (fun pr => pr.1.map (fun x => x - pr.2))
      match EliasFano.ofList L, residuals.mapM EliasFano.ofList with
      | some level_1, some level_2 =>
        some ⟨numbers.length, 2 ^ pyBitLength last, b, level_1, level_2⟩
      | _, _ => none

/-- `UniformlyPartitionedEliasFano.__len__` (lines 117-118). -/
def len (s : UPEF) : ℕ := (s.level_2.map (fun ef => ef.n)).sum

/-- `UniformlyPartitionedEliasFano.select` (lines 52-69).
`self._level_2[j]` is a dict lookup (`KeyError` when absent) and both
`[k]`/`[j]` subscripts delegate to `EliasFano.select`. -/
def select (s : UPEF) (i : ℕ) : Option ℕ :=
  if i < s.len then
    let j := i / s.b
    let k := i % s.b
    match s.level_2[j]? with
    | none => none
    | some efj =>
      match efj.select k, s.level_1.select j with
      | some e, some a => some (a + e)
      | _, _ => none
  else none

/-- `UniformlyPartitionedEliasFano.rank` (lines 71-93).  After the range
check, Python binds `j = self._level_1.rank(self._level_1.nextLEQ(x))`.
`EliasFano.rank` returns a list (or a `locate` iterator), and that value is
passed to `self._level_1.select`, whose bounds check `0 <= j < self._n`
compares an `int` with a `list` and raises `TypeError` unconditionally (the
`except ValueError` clause does not catch it).  Hence the method never
returns normally; it is `none` whenever the preceding calls already are. -/
def rank (s : UPEF) (x : ℕ) : Option ℕ :=
  match s.select 0, s.select (s.n - 1) with
  | some lo, some hi =>
    if x < lo ∨ hi < x then none
    else
      match s.level_1.nextLEQ x with
      | none => none
      | some g =>
        match s.level_1.rank g with
        | none => none
        | some _ => none
  | _, _ => none

/-- `UniformlyPartitionedEliasFano.bit_length` (lines 95-100). -/
def bit_length (s : UPEF) : ℕ :=
  s.level_1.bit_length + (s.level_2.map (fun ef => ef.bit_length)).sum

end UPEF

/-- A multi-level Elias-Fano structure, mirroring the attributes set by
`MultiLevelEliasFano.__init__` (src/pyEliasFano/MultiLevelEliasFano.py).
The second level is a dict from prefix label to either a leaf `EliasFano`
or a nested `MultiLevelEliasFano`, embedded as an association list in key
(= insertion) order. -/
inductive MLEF : Type where
  | mk : (n u d b : ℕ) → (level_1 : EliasFano) →
      (level_2 : List (ℕ × (EliasFano ⊕ MLEF))) → MLEF
  deriving Repr

namespace MLEF

/-- Field accessor. -/
def n : MLEF → ℕ | .mk n _ _ _ _ _ => n

/-- Field accessor. -/
def u : MLEF → ℕ | .mk _ u _ _ _ _ => u

/-- Field accessor. -/
def d : MLEF → ℕ | .mk _ _ d _ _ _ => d

/-- Field accessor. -/
def b : MLEF → ℕ | .mk _ _ _ b _ _ => b

/-- Field accessor. -/
def level_1 : MLEF → EliasFano | .mk _ _ _ _ l1 _ => l1

/-- Field accessor. -/
def level_2 : MLEF → List (ℕ × (EliasFano ⊕ MLEF)) | .mk _ _ _ _ _ l2 => l2

end MLEF

/-- `len` of a second-level entry: `len(MultiLevelEliasFano)` is `self._n`
and `len(EliasFano)` is `self._n` as well. -/
def MLChildLen : EliasFano ⊕ MLEF → ℕ
  | .inl ef => ef.n
  | .inr m => m.n

/-- `itertools.groupby(pairs, key=first)` for a list of
(prefix, suffix) pairs: maximal runs of consecutive equal prefixes,
each with the list of its suffixes. -/
def groupRuns : List (ℕ × ℕ) → List (ℕ × List ℕ)
  | [] => []
  | (p, sfx) :: rest =>
    match groupRuns rest with
    | [] => [(p, [sfx])]
    | (q, g) :: gs =>
      if p = q then (p, sfx :: g) :: gs else (p, [sfx]) :: (q, g) :: gs

mutual

/-- `MultiLevelEliasFano.__init__` (lines 19-66).  `sorted_integers[-1]`
raises on an empty list; `divmod(·, 0)` raises `ZeroDivisionError` when
`depth == 0`.  For `depth > 1` and `n > 1` the elements are split into a
`b`-bit prefix and a `(W - b)`-bit suffix where `W = max(1,
sorted_integers[-1].bit_length())` and `b = W // depth`; the suffix mask is
`int("1" * (W - b), 2)`, and `W - b ≥ 1` holds on this branch since
`depth ≥ 2` forces `b ≤ W / 2 < W`, so the `int("", 2)` failure mode is
unreachable.  Consecutive equal prefixes are grouped; each group becomes a
child (`MultiLevelEliasFano` of depth `d - 1` when the group exceeds
`2 ** b` elements, else a leaf `EliasFano`), and the distinct prefixes are
encoded as the first level. -/
def MLEF.ofList (xs : List ℕ) (depth : ℕ) : Option MLEF :=
  match xs.getLast? with
  | none => none
  | some last =>
    if depth = 0 then none
    else
      let W := max 1 (pyBitLength last)
      let u := 2 ^ W
      let b := W / depth
      if 1 < depth ∧ 1 < xs.length then
        let pairs := xs.map (fun x => (x >>> (W - b), x &&& (2 ^ (W - b) - 1)))
        match MLEF.buildChildren (depth - 1) b (groupRuns pairs) with
        | none => none
        | some level_2 =>
          match EliasFano.ofList ((groupRuns pairs).map (fun g => g.1)) with
          | none => none
          | some level_1 => some (.mk xs.length u depth b level_1 level_2)
      else
        match EliasFano.ofList xs with
        | none => none
        | some level_1 => some (.mk xs.length u depth b level_1 [])
termination_by (depth, 0)

/-- Builds the second-level children of a `MultiLevelEliasFano` node:
for each (prefix, suffixes) group, a `MultiLevelEliasFano` of depth
`childDepth` when `len(suffixes) > 2 ** b`, else a leaf `EliasFano`. -/
def MLEF.buildChildren (childDepth bexp : ℕ) :
    List (ℕ × List ℕ) → Option (List (ℕ × (EliasFano ⊕ MLEF)))
  | [] => some []
  | (p, sfx) :: rest =>
    let child : Option (EliasFano ⊕ MLEF) :=
      if 2 ^ bexp < sfx.length then (MLEF.ofList sfx childDepth).map .inr
      else (EliasFano.ofList sfx).map .inl
    match child, MLEF.buildChildren childDepth bexp rest with
    | some c, some cs => some ((p, c) :: cs)
    | _, _ => none
termination_by groups => (childDepth, groups.length + 1)

end

mutual

/-- `MultiLevelEliasFano.select` (lines 68-99).  With a non-empty second
level, `h` is the first child whose cumulative length exceeds `k`
(`first(locate(...))` raises `ValueError` when there is none), `l` the
number of elements in earlier children; the result combines
`level_1.select(h)` shifted by `int(log2(u)) - b` with the child lookup of
`k - l`. -/
def MLEF.select (m : MLEF) (k : ℕ) : Option ℕ :=
  match m with
  | .mk _ u _ b level_1 level_2 =>
    if ¬ level_2.isEmpty then
      let lens := level_2.map (fun pc => MLChildLen pc.2)
      match (accumulate lens).findIdx? (fun popcnt => k < popcnt) with
      | none => none
      | some h =>
        let l := (lens.take h).sum
        match MLEF.childSelectAt level_2 h (k - l), level_1.select h with
        | some inf, some sup0 =>
          some ((sup0 <<< (pyLog2 u - b)) + inf)
        | _, _ => none
    else level_1.select k

/-- Select on the `h`-th second-level child (`self._level_2[nth(keys, h)]`,
then `.select(off)`); `none` when `h` is out of range. -/
def MLEF.childSelectAt :
    List (ℕ × (EliasFano ⊕ MLEF)) → ℕ → ℕ → Option ℕ
  | [], _, _ => none
  | (_, .inl ef) :: _, 0, off => ef.select off
  | (_, .inr m) :: _, 0, off => MLEF.select m off
  | _ :: rest, h + 1, off => MLEF.childSelectAt rest h off

end

/-- The ascending list of indices at which `x` occurs in `xs`. -/
def occIdx (xs : List ℕ) (x : ℕ) : List ℕ :=
  (List.range xs.length).filter (fun i => xs.getD i 0 == x)

/-! ## Arithmetic facts about the chosen bit widths -/

/-- For `n ≥ 1`, the bit widths chosen by `__init__` cover `W` bits:
`W ≤ ⌊log₂(2^W / n)⌋ + ⌈log₂ n⌉`. -/
lemma le_log_add_clog {W n : ℕ} (hn : 0 < n) :
    W ≤ Nat.log 2 (2 ^ W / n) + Nat.clog 2 n := by
  rcases le_or_lt W (Nat.clog 2 n) with h | h
  · omega
  · have hle : n ≤ 2 ^ Nat.clog 2 n := Nat.le_pow_clog (by norm_num) n
    have hdiv : 2 ^ (W - Nat.clog 2 n) ≤ 2 ^ W / n := by
      calc 2 ^ (W - Nat.clog 2 n) = 2 ^ W / 2 ^ Nat.clog 2 n :=
            (Nat.pow_div (le_of_lt h) (by norm_num)).symm
        _ ≤ 2 ^ W / n := Nat.div_le_div_left hle hn
    have hlog := Nat.log_mono_right (b := 2) hdiv
    rw [Nat.log_pow (by norm_num)] at hlog
    omega

/-- Upper halves shrink monotonically. -/
lemma shiftRight_le_shiftRight {x y : ℕ} (l : ℕ) (h : x ≤ y) :
    x >>> l ≤ y >>> l := by
  simp only [Nat.shiftRight_eq_div_pow]
  exact Nat.div_le_div_right h

/-- Division bound: `x < 2^(l+h)` forces the upper half below `2^h`. -/
lemma shiftRight_lt_of_lt {x l h : ℕ} (hx : x < 2 ^ (l + h)) :
    x >>> l < 2 ^ h := by
  rw [Nat.shiftRight_eq_div_pow]
  rw [Nat.div_lt_iff_lt_mul (Nat.pos_pow_of_pos l (by norm_num))]
  calc x < 2 ^ (l + h) := hx
    _ = 2 ^ h * 2 ^ l := by rw [← Nat.pow_add]; ring_nf

/-! ## Counting engine on sorted lists -/

/-- Splitting a `≤`-count at a bucket value. -/
lemma countP_up_le_split (xs : List ℕ) (l s : ℕ) :
    xs.countP (fun x => x >>> l ≤ s) =
      xs.countP (fun x => x >>> l < s) + xs.countP (fun x => x >>> l == s) := by
  induction xs with
  | nil => simp
  | cons a tl ih =>
    simp only [List.countP_cons, ih]
    rcases Nat.lt_trichotomy (a >>> l) s with h | h | h
    · have h1 : a >>> l ≤ s := le_of_lt h
      have h2 : ¬ (a >>> l == s) = true := by simp [Nat.ne_of_lt h]
      simp [h, h1, h2]
      omega
    · simp [h]
      omega
    · have h1 : ¬ a >>> l ≤ s := not_le_of_lt h
      have h2 : ¬ a >>> l < s := by omega
      have h3 : ¬ (a >>> l == s) = true := by simp; omega
      simp [h1, h2, h3]

/-- The bucket histogram sums to the `≤`-count. -/
lemma sum_range_succ_countP (xs : List ℕ) (l s : ℕ) :
    ((List.range (s + 1)).map (fun t => xs.countP (fun x => x >>> l == t))).sum
      = xs.countP (fun x => x >>> l ≤ s) := by
  induction s with
  | zero =>
    simp only [List.range_succ, List.range_zero, List.nil_append, List.map_cons,
      List.map_nil, List.sum_cons, List.sum_nil]
    refine (List.countP_congr ?_).symm
    intro x _
    simp [Nat.le_zero]
  | succ s ih =>
    rw [List.range_succ, List.map_append, List.sum_append]
    simp only [List.map_cons, List.map_nil, List.sum_cons, List.sum_nil, ih]
    have hlt : xs.countP (fun x => x >>> l < s + 1) = xs.countP (fun x => x >>> l ≤ s) := by
      refine List.countP_congr ?_
      intro x _
      simp [Nat.lt_succ_iff]
    rw [countP_up_le_split xs l (s + 1), hlt]
    omega

/-- Entries of `accumulateFrom` are partial sums. -/
lemma accumulateFrom_getElem? (l : List ℕ) :
    ∀ (a i : ℕ), i < l.length →
      (accumulateFrom a l)[i]? = some (a + (l.take (i + 1)).sum) := by
  induction l with
  | nil => intro a i h; simp at h
  | cons x tl ih =>
    intro a i h
    cases i with
    | zero => simp [accumulateFrom]
    | succ i =>
      have hi : i < tl.length := by simpa using h
      simp [accumulateFrom, ih (a + x) i hi, Nat.add_assoc]

/-- The prefix-sum array of the bucket histogram counts elements with
upper half `≤ s`. -/
lemma accumulate_histogram_getElem? (xs : List ℕ) (l m s : ℕ) (hsm : s < m) :
    (accumulate ((List.range m).map (fun t => xs.countP (fun x => x >>> l == t))))[s]?
      = some (xs.countP (fun x => x >>> l ≤ s)) := by
  unfold accumulate
  rw [accumulateFrom_getElem? _ 0 s (by simpa using hsm)]
  rw [← List.map_take, List.take_range, Nat.min_eq_left (by omega),
    sum_range_succ_countP, Nat.zero_add]

/-- Monotone indexing into a sorted list. -/
lemma sorted_getElem_mono {xs : List ℕ} (hs : xs.Sorted (· ≤ ·)) {i j : ℕ}
    (hij : i ≤ j) (hj : j < xs.length) (hi : i < xs.length) : xs[i] ≤ xs[j] := by
  rcases Nat.eq_or_lt_of_le hij with rfl | hlt
  · exact le_refl _
  · exact List.pairwise_iff_getElem.mp hs i j _ hj hlt

/-- In a sorted list, at most `k` elements have upper half `≤ s` when `s`
is below the upper half of the element at index `k`. -/
lemma countP_up_le_of_lt {xs : List ℕ} (hs : xs.Sorted (· ≤ ·)) {k : ℕ}
    (hk : k < xs.length) {l s : ℕ} (h : s < xs[k] >>> l) :
    xs.countP (fun x => x >>> l ≤ s) ≤ k := by
  have hsplit := (List.take_append_drop k xs) ▸
    (List.countP_append (fun x => decide (x >>> l ≤ s)) (xs.take k) (xs.drop k))
  have hdrop : (xs.drop k).countP (fun x => x >>> l ≤ s) = 0 := by
    rw [List.countP_eq_zero]
    intro a ha
    obtain ⟨j, hj, rfl⟩ := List.mem_iff_getElem.mp ha
    have hkj : k + j < xs.length := by
      have := hj
      simp only [List.length_drop] at this
      omega
    rw [@List.getElem_drop _ xs k j hj]
    have hle : xs[k] ≤ xs[k + j] := sorted_getElem_mono hs (by omega) hkj hk
    have := shiftRight_le_shiftRight l hle
    simp only [decide_eq_true_eq]
    omega
  have htake : (xs.take k).countP (fun x => x >>> l ≤ s) ≤ k :=
    le_trans (List.countP_le_length _) (by simp)
  omega

/-- In a sorted list, more than `k` elements have upper half `≤` that of
the element at index `k`. -/
lemma lt_countP_up_le {xs : List ℕ} (hs : xs.Sorted (· ≤ ·)) {k : ℕ}
    (hk : k < xs.length) (l : ℕ) :
    k < xs.countP (fun x => x >>> l ≤ xs[k] >>> l) := by
  have hsplit := (List.take_append_drop (k + 1) xs) ▸
    (List.countP_append (fun x => decide (x >>> l ≤ xs[k] >>> l))
      (xs.take (k + 1)) (xs.drop (k + 1)))
  have htake : (xs.take (k + 1)).countP (fun x => x >>> l ≤ xs[k] >>> l)
      = (xs.take (k + 1)).length := by
    rw [List.countP_eq_length]
    intro a ha
    obtain ⟨j, hj, rfl⟩ := List.mem_iff_getElem.mp ha
    rw [@List.getElem_take _ xs (k + 1) j hj]
    have hjk : j ≤ k := by
      have := hj; simp only [List.length_take] at this; omega
    have hle : xs[j] ≤ xs[k] := sorted_getElem_mono hs hjk hk (by omega)
    simpa using shiftRight_le_shiftRight l hle
  have hlen : (xs.take (k + 1)).length = k + 1 := by
    simp [List.length_take]; omega
  omega

/-- Characterization of `findIdx?` at the first satisfying index
(auxiliary, with explicit start offset). -/
lemma findIdx?_go_eq_some {p : ℕ → Bool} :
    ∀ (ps : List ℕ) (start i : ℕ) (hi : i < ps.length),
      p (ps[i]) = true → (∀ j (hj : j < i), p (ps[j]) = false) →
      ps.findIdx? p start = some (start + i)
  | [], _, i, hi, _, _ => by simp at hi
  | x :: tl, start, 0, _, hp, _ => by
    simp only [List.getElem_cons_zero] at hp
    simp [List.findIdx?_cons, hp]
  | x :: tl, start, i + 1, hi, hp, hbefore => by
    have hx : p x = false := by
      have := hbefore 0 (by omega)
      simpa using this
    rw [List.findIdx?_cons, hx]
    simp only [Bool.false_eq_true, if_false]
    have htl := findIdx?_go_eq_some tl (start + 1) i (by simpa using hi)
      (by simpa using hp)
      (fun j hj => by
        have := hbefore (j + 1) (by omega)
        simpa using this)
    rw [htl]
    congr 1
    omega

/-- Characterization of `findIdx?` at the first satisfying index. -/
lemma findIdx?_eq_some_first {p : ℕ → Bool} {ps : List ℕ} {i : ℕ}
    (hi : i < ps.length) (hp : p (ps[i]) = true)
    (hbefore : ∀ j (hj : j < i), p (ps[j]) = false) :
    ps.findIdx? p = some i := by
  simpa using findIdx?_go_eq_some ps 0 i hi hp hbefore

/-- Length of running sums. -/
lemma accumulateFrom_length (l : List ℕ) : ∀ a, (accumulateFrom a l).length = l.length := by
  induction l with
  | nil => intro a; rfl
  | cons x tl ih => intro a; simp [accumulateFrom, ih]

/-- Length of `accumulate`. -/
lemma accumulate_length (l : List ℕ) : (accumulate l).length = l.length :=
  accumulateFrom_length l 0

/-- Recombining the split halves of an element. -/
lemma shiftLeft_or_mod (x l : ℕ) : ((x >>> l) <<< l) ||| (x % 2 ^ l) = x := by
  have hpos : 0 < 2 ^ l := Nat.pos_pow_of_pos l (by norm_num)
  rw [Nat.shiftLeft_eq, Nat.shiftRight_eq_div_pow, Nat.mul_comm,
    ← Nat.mul_add_lt_is_or (Nat.mod_lt x hpos) (x / 2 ^ l), Nat.div_add_mod]

/-! ## The fuel-based arithmetic helpers agree with their Mathlib forms -/

/-- `bitLenFuel` computes `Nat.size` when the fuel dominates the value. -/
lemma bitLenFuel_eq : ∀ {fuel n : ℕ}, n ≤ fuel → bitLenFuel fuel n = Nat.size n := by
  intro fuel
  induction fuel with
  | zero =>
    intro n h
    have hn : n = 0 := by omega
    subst hn
    simp [bitLenFuel, Nat.size_zero]
  | succ fuel ih =>
    intro n h
    by_cases h0 : n = 0
    · subst h0
      simp [bitLenFuel, Nat.size_zero]
    · have hdiv : n / 2 ≤ fuel := by
        have := Nat.div_lt_self (by omega : 0 < n) (by norm_num : 1 < 2)
        omega
      have hb : Nat.bit (Nat.bodd n) (Nat.div2 n) ≠ 0 := by
        rw [Nat.bit_decomp]
        exact h0
      calc bitLenFuel (fuel + 1) n = bitLenFuel fuel (n / 2) + 1 := by
            simp [bitLenFuel, h0]
        _ = Nat.size (n / 2) + 1 := by rw [ih hdiv]
        _ = Nat.size (Nat.div2 n) + 1 := by rw [Nat.div2_val]
        _ = Nat.size (Nat.bit (Nat.bodd n) (Nat.div2 n)) := (Nat.size_bit hb).symm
        _ = Nat.size n := by rw [Nat.bit_decomp]

/-- The kernel-computable bit length is `Nat.size`. -/
lemma pyBitLength_eq (x : ℕ) : pyBitLength x = Nat.size x :=
  bitLenFuel_eq le_rfl

/-- `clog2Fuel` computes `Nat.clog 2` when the fuel dominates the value. -/
lemma clog2Fuel_eq : ∀ {fuel n : ℕ}, n ≤ fuel → clog2Fuel fuel n = Nat.clog 2 n := by
  intro fuel
  induction fuel with
  | zero =>
    intro n h
    have hn : n = 0 := by omega
    subst hn
    simp [clog2Fuel]
  | succ fuel ih =>
    intro n h
    by_cases h1 : n ≤ 1
    · rw [Nat.clog_of_right_le_one h1]
      simp [clog2Fuel, h1]
    · have h2 : 2 ≤ n := by omega
      have hrec := Nat.clog_of_two_le (by norm_num : 1 < 2) h2
      have harg : n + 2 - 1 = n + 1 := by omega
      rw [harg] at hrec
      have hdiv : (n + 1) / 2 ≤ fuel := by omega
      simp only [clog2Fuel, if_neg h1]
      rw [ih hdiv, hrec]

/-- The kernel-computable ceiling log is `Nat.clog 2`. -/
lemma pyClog2_eq (n : ℕ) : pyClog2 n = Nat.clog 2 n :=
  clog2Fuel_eq le_rfl

/-- `log2Fuel` computes `Nat.log 2` when the fuel dominates the value. -/
lemma log2Fuel_eq : ∀ {fuel n : ℕ}, n ≤ fuel → log2Fuel fuel n = Nat.log 2 n := by
  intro fuel
  induction fuel with
  | zero =>
    intro n h
    have hn : n = 0 := by omega
    subst hn
    simp [log2Fuel]
  | succ fuel ih =>
    intro n h
    by_cases h1 : n ≤ 1
    · have hz : Nat.log 2 n = 0 := Nat.log_of_lt (by omega)
      simp [log2Fuel, h1, hz]
    · have h2 : 2 ≤ n := by omega
      have hrec := Nat.log_of_one_lt_of_le (by norm_num : 1 < 2) h2
      have hdiv : n / 2 ≤ fuel := by omega
      simp only [log2Fuel, if_neg h1]
      rw [ih hdiv, hrec]

/-- The kernel-computable floor log is `Nat.log 2`. -/
lemma pyLog2_eq (n : ℕ) : pyLog2 n = Nat.log 2 n :=
  log2Fuel_eq le_rfl

/-! ## Construction: `__init__` on sorted input -/

/-- Every element of a sorted non-empty list fits in the
`lower_bits + upper_bits` window chosen by `__init__`. -/
lemma mem_lt_two_pow {xs : List ℕ} (hs : xs.Sorted (· ≤ ·)) (hne : xs ≠ [])
    {x : ℕ} (hx : x ∈ xs) :
    x < 2 ^ (Nat.log 2 (2 ^ max 1 (Nat.size (xs.getLast hne)) / xs.length) +
      Nat.clog 2 xs.length) := by
  have hn : 0 < xs.length := List.length_pos.mpr hne
  have hlast : x ≤ xs.getLast hne := by
    obtain ⟨i, hi, rfl⟩ := List.mem_iff_getElem.mp hx
    rw [List.getLast_eq_getElem]
    exact sorted_getElem_mono hs (by omega) (by omega) (by omega)
  have hsize : xs.getLast hne < 2 ^ max 1 (Nat.size (xs.getLast hne)) :=
    lt_of_lt_of_le (Nat.lt_size_self _)
      (Nat.pow_le_pow_right (by norm_num) (le_max_right _ _))
  have hW := le_log_add_clog
    (W := max 1 (Nat.size (xs.getLast hne))) hn
  calc x ≤ xs.getLast hne := hlast
    _ < 2 ^ max 1 (Nat.size (xs.getLast hne)) := hsize
    _ ≤ _ := Nat.pow_le_pow_right (by norm_num) hW

/-- The histogram encoding succeeds when all upper halves are in range. -/
lemma encodeSuperiors_eq {l h : ℕ} {xs : List ℕ}
    (hb : ∀ x ∈ xs, x >>> l < 2 ^ h) :
    EliasFano.encodeSuperiors l h xs = some (if h = 0 then []
      else (List.range (2 ^ h)).map (fun s => xs.countP (fun x => x >>> l == s))) := by
  by_cases h0 : h = 0
  · simp [EliasFano.encodeSuperiors, h0]
  · have hall : xs.all (fun x => decide (x >>> l < 2 ^ h)) = true := by
      rw [List.all_eq_true]
      intro x hx
      simpa using hb x hx
    simp [EliasFano.encodeSuperiors, h0, hall]

/-- Characterization of `EliasFano.ofList` on sorted non-empty input:
construction succeeds and the resulting fields are as computed by
`__init__` / `_encode`. -/
lemma ofList_spec {xs : List ℕ} (hs : xs.Sorted (· ≤ ·)) (hne : xs ≠ []) :
    ∃ ef : EliasFano, EliasFano.ofList xs = some ef ∧
      ef.n = xs.length ∧
      ef.upper_bits = Nat.clog 2 xs.length ∧
      ef.u = 2 ^ max 1 (Nat.size (xs.getLast hne)) ∧
      ef.lower_bits = Nat.log 2 (ef.u / xs.length) ∧
      ef.inferiors = (if 0 < ef.lower_bits then
        xs.map (fun x => x % 2 ^ ef.lower_bits) else []) ∧
      ef.superiors = (if ef.upper_bits = 0 then []
        else (List.range (2 ^ ef.upper_bits)).map
          (fun s => xs.countP (fun x => x >>> ef.lower_bits == s))) ∧
      ef.superiors_prefixSums = accumulate ef.superiors := by
  have hlast : xs.getLast? = some (xs.getLast hne) := List.getLast?_eq_getLast xs hne
  have hb : ∀ x ∈ xs,
      x >>> Nat.log 2 (2 ^ max 1 (Nat.size (xs.getLast hne)) / xs.length)
        < 2 ^ Nat.clog 2 xs.length :=
    fun x hx => shiftRight_lt_of_lt (mem_lt_two_pow hs hne hx)
  have hofl : EliasFano.ofList xs = some
      { n := xs.length
        u := 2 ^ max 1 (Nat.size (xs.getLast hne))
        upper_bits := Nat.clog 2 xs.length
        lower_bits := Nat.log 2 (2 ^ max 1 (Nat.size (xs.getLast hne)) / xs.length)
        inferiors := if 0 < Nat.log 2 (2 ^ max 1 (Nat.size (xs.getLast hne)) / xs.length)
          then xs.map (fun x =>
            x % 2 ^ Nat.log 2 (2 ^ max 1 (Nat.size (xs.getLast hne)) / xs.length))
          else []
        superiors := if Nat.clog 2 xs.length = 0 then []
          else (List.range (2 ^ Nat.clog 2 xs.length)).map
            (fun s => xs.countP (fun x =>
              x >>> Nat.log 2 (2 ^ max 1 (Nat.size (xs.getLast hne)) / xs.length) == s))
        superiors_prefixSums := accumulate (if Nat.clog 2 xs.length = 0 then []
          else (List.range (2 ^ Nat.clog 2 xs.length)).map
            (fun s => xs.countP (fun x =>
              x >>> Nat.log 2 (2 ^ max 1 (Nat.size (xs.getLast hne)) / xs.length) == s))) } := by
    simp only [EliasFano.ofList, hlast, pyBitLength_eq, pyClog2_eq, pyLog2_eq,
      encodeSuperiors_eq hb]
  exact ⟨_, hofl, rfl, rfl, rfl, rfl, rfl, rfl, rfl⟩

/-- Correctness of `select` on sorted input: `select(k) = xs[k]`. -/
lemma select_eq {xs : List ℕ} (hs : xs.Sorted (· ≤ ·)) (hne : xs ≠ [])
    {ef : EliasFano} (hof : EliasFano.ofList xs = some ef)
    {k : ℕ} (hk : k < xs.length) : ef.select k = some xs[k] := by
  obtain ⟨ef2, hof2, hn, hub, hu, hlb, hinf, hsup, hps⟩ := ofList_spec hs hne
  rw [hof] at hof2
  injection hof2 with heq
  subst heq
  have hbound : ∀ x ∈ xs, x < 2 ^ (ef.lower_bits + ef.upper_bits) := by
    intro x hx
    rw [hub, hlb, hu]
    exact mem_lt_two_pow hs hne hx
  have hvk : xs[k] >>> ef.lower_bits < 2 ^ ef.upper_bits :=
    shiftRight_lt_of_lt (hbound _ (List.getElem_mem hk))
  -- the superior found by the prefix-sum scan is the upper half of xs[k]
  have hsupval : (ef.superiors_prefixSums.findIdx?
      (fun cnt => k < cnt)).getD 0 = xs[k] >>> ef.lower_bits := by
    by_cases h0 : ef.upper_bits = 0
    · have hz : xs[k] >>> ef.lower_bits = 0 := by
        have := hvk
        rw [h0] at this
        simpa using this
      rw [hps, hsup, if_pos h0, hz]
      rfl
    · rw [hps, hsup, if_neg h0]
      set l := ef.lower_bits
      set m := 2 ^ ef.upper_bits
      set v := xs[k] >>> l with hv
      have hvm : v < m := hvk
      have hlen : (accumulate ((List.range m).map
          (fun t => xs.countP (fun x => x >>> l == t)))).length = m := by
        rw [accumulate_length, List.length_map, List.length_range]
      have hget : ∀ s, s < m →
          (accumulate ((List.range m).map (fun t => xs.countP (fun x => x >>> l == t))))[s]?
            = some (xs.countP (fun x => x >>> l ≤ s)) :=
        fun s hsm => accumulate_histogram_getElem? xs l m s hsm
      have hfind : (accumulate ((List.range m).map
          (fun t => xs.countP (fun x => x >>> l == t)))).findIdx?
            (fun cnt => k < cnt) = some v := by
        apply findIdx?_eq_some_first (by omega)
        · obtain ⟨hv1, hv2⟩ := List.getElem?_eq_some.mp (hget v hvm)
          rw [hv2]
          simpa using lt_countP_up_le hs hk l
        · intro j hj
          obtain ⟨hj1, hj2⟩ := List.getElem?_eq_some.mp (hget j (by omega))
          rw [hj2]
          simpa using countP_up_le_of_lt hs hk (by omega)
      rw [hfind]
      rfl
  have hinfval : ef.inferiors.getD k 0 = xs[k] % 2 ^ ef.lower_bits := by
    by_cases hl : 0 < ef.lower_bits
    · rw [hinf, if_pos hl, List.getD_eq_getElem?_getD, List.getElem?_map,
        List.getElem?_eq_getElem hk]
      rfl
    · have hl0 : ef.lower_bits = 0 := by omega
      rw [hinf, if_neg hl, hl0]
      simp [Nat.mod_one]
  rw [EliasFano.select, if_pos (by omega : k < ef.n)]
  rw [hsupval, hinfval]
  simp only [shiftLeft_or_mod]

/-- `select` rejects out-of-range indices. -/
lemma select_none {ef : EliasFano} {k : ℕ} (hk : ef.n ≤ k) : ef.select k = none := by
  rw [EliasFano.select, if_neg (by omega)]

/-! ## Structural decomposition of a sorted list into buckets -/

/-- On a sorted list, a predicate closed downwards along `≤` filters to a
prefix. -/
lemma filter_eq_takeWhile_mono {xs : List ℕ} {p : ℕ → Bool}
    (hp : ∀ x ∈ xs, ∀ y ∈ xs, x ≤ y → p y = true → p x = true)
    (hs : xs.Sorted (· ≤ ·)) :
    xs.filter p = xs.takeWhile p := by
  induction xs with
  | nil => rfl
  | cons a tl ih =>
    rw [List.sorted_cons] at hs
    obtain ⟨ha, htl⟩ := hs
    by_cases hpa : p a = true
    · have hrec := ih (fun x hx y hy hxy hq =>
        hp x (by simp [hx]) y (by simp [hy]) hxy hq) htl
      simp [List.filter_cons, List.takeWhile_cons, hpa, hrec]
    · have hnil : tl.filter p = [] := by
        rw [List.filter_eq_nil_iff]
        intro x hx hpx
        exact hpa (hp a (by simp) x (by simp [hx]) (ha x hx) hpx)
      simp [List.filter_cons, List.takeWhile_cons, hpa, hnil]

/-- On a sorted list, after the maximal prefix satisfying a downward-closed
predicate, the predicate fails everywhere. -/
lemma dropWhile_all_false {xs : List ℕ} {p : ℕ → Bool}
    (hp : ∀ x ∈ xs, ∀ y ∈ xs, x ≤ y → p y = true → p x = true)
    (hs : xs.Sorted (· ≤ ·)) :
    ∀ x ∈ xs.dropWhile p, p x = false := by
  induction xs with
  | nil => simp
  | cons a tl ih =>
    rw [List.sorted_cons] at hs
    obtain ⟨ha, htl⟩ := hs
    by_cases hpa : p a = true
    · rw [List.dropWhile_cons, if_pos hpa]
      exact ih (fun x hx y hy hxy hq =>
        hp x (by simp [hx]) y (by simp [hy]) hxy hq) htl
    · rw [List.dropWhile_cons, if_neg hpa]
      intro x hx
      rcases List.mem_cons.mp hx with rfl | hx
      · exact Bool.eq_false_iff.mpr hpa
      · by_contra hpx
        exact hpa (hp a (by simp) x (by simp [hx]) (ha x hx)
          (Bool.not_eq_false _ ▸ hpx))

/-- Taking the length of the `takeWhile` prefix recovers it. -/
lemma take_length_takeWhile {α : Type} (p : α → Bool) (l : List α) :
    l.take (l.takeWhile p).length = l.takeWhile p := by
  induction l with
  | nil => rfl
  | cons a tl ih =>
    by_cases hpa : p a = true
    · simp [List.takeWhile_cons, hpa, ih]
    · simp [List.takeWhile_cons, hpa]

/-- `takeWhile` only depends on predicate values on the list. -/
lemma takeWhile_congr_mem {α : Type} {p q : α → Bool} {l : List α}
    (h : ∀ x ∈ l, p x = q x) : l.takeWhile p = l.takeWhile q := by
  induction l with
  | nil => rfl
  | cons a tl ih =>
    have ha := h a (by simp)
    by_cases hpa : p a = true
    · simp [List.takeWhile_cons, hpa, ha ▸ hpa,
        ih (fun x hx => h x (by simp [hx]))]
    · have hqa : ¬ q a = true := by rw [← ha]; exact hpa
      simp [List.takeWhile_cons, hpa, hqa]

/-- Dropping the `takeWhile` prefix is `dropWhile`. -/
lemma drop_length_takeWhile {α : Type} (p : α → Bool) (l : List α) :
    l.drop (l.takeWhile p).length = l.dropWhile p := by
  induction l with
  | nil => rfl
  | cons a tl ih =>
    by_cases hpa : p a = true <;>
      simp [List.takeWhile_cons, List.dropWhile_cons, hpa, ih]

/-- The downward closure of the `upper half < s` predicate on `≤`. -/
lemma up_lt_mono {xs : List ℕ} (l s : ℕ) :
    ∀ x ∈ xs, ∀ y ∈ xs, x ≤ y →
      decide (y >>> l < s) = true → decide (x >>> l < s) = true := by
  intro x _ y _ hxy hq
  simp only [decide_eq_true_eq] at hq ⊢
  exact lt_of_le_of_lt (shiftRight_le_shiftRight l hxy) hq

/-- The downward closure of the `upper half ≤ s` predicate on `≤`. -/
lemma up_le_mono {xs : List ℕ} (l s : ℕ) :
    ∀ x ∈ xs, ∀ y ∈ xs, x ≤ y →
      decide (y >>> l ≤ s) = true → decide (x >>> l ≤ s) = true := by
  intro x _ y _ hxy hq
  simp only [decide_eq_true_eq] at hq ⊢
  exact le_trans (shiftRight_le_shiftRight l hxy) hq

/-- Slicing a sorted list between the bucket prefix sums yields exactly the
bucket: the elements at indices `[count(up < s), count(up ≤ s))` are those
with upper half `s`. -/
lemma drop_take_bucket {xs : List ℕ} (hs : xs.Sorted (· ≤ ·)) (l s : ℕ) :
    (xs.drop (xs.countP (fun x => x >>> l < s))).take
        (xs.countP (fun x => x >>> l ≤ s) - xs.countP (fun x => x >>> l < s))
      = xs.filter (fun x => x >>> l == s) := by
  have hcnt : xs.countP (fun x => x >>> l ≤ s) - xs.countP (fun x => x >>> l < s)
      = xs.countP (fun x => x >>> l == s) := by
    have := countP_up_le_split xs l s
    omega
  have hTW : xs.filter (fun x => decide (x >>> l < s))
      = xs.takeWhile (fun x => decide (x >>> l < s)) :=
    filter_eq_takeWhile_mono (up_lt_mono l s) hs
  have hlenTW : (xs.takeWhile (fun x => decide (x >>> l < s))).length
      = xs.countP (fun x => x >>> l < s) := by
    rw [← hTW, ← List.countP_eq_length_filter]
  have hdrop : xs.drop (xs.countP (fun x => x >>> l < s))
      = xs.dropWhile (fun x => decide (x >>> l < s)) := by
    rw [← hlenTW]
    exact drop_length_takeWhile _ xs
  rw [hcnt, hdrop]
  set DW := xs.dropWhile (fun x => decide (x >>> l < s)) with hDWdef
  have hDWsub : DW.Sublist xs := List.dropWhile_sublist _
  have hDWs : DW.Sorted (· ≤ ·) := List.Pairwise.sublist hDWsub hs
  have hDWge : ∀ x ∈ DW, s ≤ x >>> l := by
    intro x hx
    have := dropWhile_all_false (up_lt_mono l s) hs x hx
    simp only [decide_eq_false_iff_not, not_lt] at this
    exact this
  have hTWne : ∀ x ∈ xs.takeWhile (fun x => decide (x >>> l < s)),
      (x >>> l == s) = false := by
    intro x hx
    have := List.mem_takeWhile_imp hx
    simp only [decide_eq_true_eq] at this
    simp
    omega
  have hfilter : xs.filter (fun x => x >>> l == s) = DW.filter (fun x => x >>> l == s) := by
    conv_lhs => rw [← List.takeWhile_append_dropWhile (fun x => decide (x >>> l < s)) xs]
    rw [List.filter_append, List.filter_eq_nil_iff.mpr
      (fun a ha => by simp [hTWne a ha]), List.nil_append]
  have hcntDW : xs.countP (fun x => x >>> l == s) = DW.countP (fun x => x >>> l == s) := by
    rw [List.countP_eq_length_filter, List.countP_eq_length_filter, hfilter]
  have hcongr : ∀ x ∈ DW, (x >>> l == s) = decide (x >>> l ≤ s) := by
    intro x hx
    have := hDWge x hx
    by_cases hxe : x >>> l = s
    · simp [hxe]
    · have hgt : ¬ (x >>> l ≤ s) := by omega
      simp [hxe, hgt]
  have hfTW : DW.filter (fun x => x >>> l == s)
      = DW.takeWhile (fun x => x >>> l == s) := by
    rw [List.filter_congr hcongr,
      filter_eq_takeWhile_mono (up_le_mono l s) hDWs,
      takeWhile_congr_mem (fun x hx => (hcongr x hx).symm)]
  rw [hcntDW, hfilter, hfTW, List.countP_eq_length_filter, hfTW,
    take_length_takeWhile]

/-- Concatenating the buckets of a sorted list in ascending bucket order
reproduces the list. -/
lemma flatten_buckets {l : ℕ} :
    ∀ (m s0 : ℕ) (xs : List ℕ), xs.Sorted (· ≤ ·) →
      (∀ x ∈ xs, s0 ≤ x >>> l ∧ x >>> l < s0 + m) →
      ((List.range' s0 m).map (fun s => xs.filter (fun x => x >>> l == s))).flatten
        = xs := by
  intro m
  induction m with
  | zero =>
    intro s0 xs _ hb
    have hnil : xs = [] := by
      cases xs with
      | nil => rfl
      | cons a tl =>
        have := hb a (by simp)
        omega
    simp [hnil]
  | succ m ih =>
    intro s0 xs hs hb
    rw [List.range'_succ, List.map_cons, List.flatten_cons]
    have hbucket : xs.filter (fun x => x >>> l == s0)
        = xs.takeWhile (fun x => decide (x >>> l ≤ s0)) := by
      rw [← filter_eq_takeWhile_mono (up_le_mono l s0) hs]
      apply List.filter_congr
      intro x hx
      have h1 := (hb x hx).1
      by_cases hxe : x >>> l = s0
      · simp [hxe]
      · have hgt : ¬ (x >>> l ≤ s0) := by omega
        simp [hxe, hgt]
    set DW := xs.dropWhile (fun x => decide (x >>> l ≤ s0)) with hDWdef
    have hDWs : DW.Sorted (· ≤ ·) :=
      List.Pairwise.sublist (List.dropWhile_sublist _) hs
    have hDWb : ∀ x ∈ DW, s0 + 1 ≤ x >>> l ∧ x >>> l < (s0 + 1) + m := by
      intro x hx
      have hmem : x ∈ xs := (List.dropWhile_sublist _).subset hx
      have h1 := hb x hmem
      have h2 := dropWhile_all_false (up_le_mono l s0) hs x hx
      simp only [decide_eq_false_iff_not, not_le] at h2
      omega
    have hrest : ∀ s ∈ List.range' (s0 + 1) m,
        xs.filter (fun x => x >>> l == s) = DW.filter (fun x => x >>> l == s) := by
      intro s hsmem
      have hs1 : s0 + 1 ≤ s := by
        rw [List.mem_range'] at hsmem
        omega
      conv_lhs => rw [← List.takeWhile_append_dropWhile
        (fun x => decide (x >>> l ≤ s0)) xs]
      rw [List.filter_append]
      have hnil : (xs.takeWhile (fun x => decide (x >>> l ≤ s0))).filter
          (fun x => x >>> l == s) = [] := by
        rw [List.filter_eq_nil_iff]
        intro a ha hpa
        have h1 := List.mem_takeWhile_imp ha
        simp only [decide_eq_true_eq] at h1
        simp only [beq_iff_eq] at hpa
        omega
      rw [hnil, List.nil_append]
    calc xs.filter (fun x => x >>> l == s0) ++
          ((List.range' (s0 + 1) m).map (fun s => xs.filter (fun x => x >>> l == s))).flatten
        = xs.takeWhile (fun x => decide (x >>> l ≤ s0)) ++
          ((List.range' (s0 + 1) m).map (fun s => DW.filter (fun x => x >>> l == s))).flatten := by
          rw [hbucket, List.map_congr_left hrest]
      _ = xs.takeWhile (fun x => decide (x >>> l ≤ s0)) ++ DW := by
          rw [ih (s0 + 1) DW hDWs hDWb]
      _ = xs := List.takeWhile_append_dropWhile _ _

/-! ## Index ranges of buckets -/

/-- In a sorted list, the element at index `i` has upper half `s` exactly
when `i` lies in the bucket index window `[count(up < s), count(up ≤ s))`. -/
lemma up_eq_iff_window {xs : List ℕ} (hs : xs.Sorted (· ≤ ·)) {i : ℕ}
    (hi : i < xs.length) (l s : ℕ) :
    xs[i] >>> l = s ↔
      (xs.countP (fun x => x >>> l < s) ≤ i ∧
        i < xs.countP (fun x => x >>> l ≤ s)) := by
  have hlt_le : xs.countP (fun x => x >>> l < s)
      = (if s = 0 then 0 else xs.countP (fun x => x >>> l ≤ s - 1)) := by
    split
    · next h0 =>
      subst h0
      simp [List.countP_eq_zero]
    · next h0 =>
      apply List.countP_congr
      intro x _
      have : (x >>> l < s) ↔ (x >>> l ≤ s - 1) := by omega
      simp [this]
  constructor
  · intro heq
    refine ⟨?_, ?_⟩
    · rw [hlt_le]
      split
      · omega
      · next h0 =>
        exact countP_up_le_of_lt hs hi (by omega)
    · have := lt_countP_up_le hs hi l
      rw [heq] at this
      exact this
  · rintro ⟨ha, hb⟩
    rcases Nat.lt_trichotomy (xs[i] >>> l) s with hlt | heq | hgt
    · exfalso
      have h1 := lt_countP_up_le hs hi l
      have h2 : xs.countP (fun x => x >>> l ≤ xs[i] >>> l)
          ≤ xs.countP (fun x => x >>> l < s) :=
        List.countP_mono_left (fun x _ hx => by
          simp only [decide_eq_true_eq] at hx ⊢
          omega)
      omega
    · exact heq
    · exfalso
      have h2 := countP_up_le_of_lt hs hi (l := l) (s := s) hgt
      omega

/-- `getD` on a mapped list at a valid index. -/
lemma getD_map {xs : List ℕ} (g : ℕ → ℕ) {i : ℕ} (hi : i < xs.length) :
    (xs.map g).getD i 0 = g xs[i] := by
  rw [List.getD_eq_getElem?_getD, List.getElem?_map, List.getElem?_eq_getElem hi]
  rfl

/-- Two numbers with equal upper halves agree exactly when their lower
halves agree. -/
lemma eq_iff_mod_eq {a b l : ℕ} (h : a >>> l = b >>> l) :
    a = b ↔ a % 2 ^ l = b % 2 ^ l := by
  constructor
  · intro heq; rw [heq]
  · intro hmod
    have h2 := h
    simp only [Nat.shiftRight_eq_div_pow] at h2
    calc a = 2 ^ l * (a / 2 ^ l) + a % 2 ^ l := (Nat.div_add_mod a (2 ^ l)).symm
      _ = 2 ^ l * (b / 2 ^ l) + b % 2 ^ l := by rw [h2, hmod]
      _ = b := Nat.div_add_mod b (2 ^ l)

/-- `getD` at a valid index. -/
lemma getD_eq_getElem0 {xs : List ℕ} {i : ℕ} (hi : i < xs.length) :
    xs.getD i 0 = xs[i] := by
  rw [List.getD_eq_getElem?_getD, List.getElem?_eq_getElem hi]
  rfl

/-- Correctness of `rank` within the representable window `[0, 2^(ℓ+h))`:
the returned value is exactly the ascending list of occurrence indices of
`x` (empty when `x` is absent). -/
lemma rank_eq {xs : List ℕ} (hs : xs.Sorted (· ≤ ·)) (hne : xs ≠ [])
    {ef : EliasFano} (hof : EliasFano.ofList xs = some ef)
    {x : ℕ} (hx : x < 2 ^ (ef.lower_bits + ef.upper_bits)) :
    ef.rank x = some (occIdx xs x) := by
  obtain ⟨ef2, hof2, hn, hub, hu, hlb, hinf, hsup, hps⟩ := ofList_spec hs hne
  rw [hof] at hof2
  injection hof2 with heq
  subst heq
  have hinfx : x &&& (2 ^ ef.lower_bits - 1) = x % 2 ^ ef.lower_bits :=
    Nat.and_pow_two_sub_one_eq_mod x ef.lower_bits
  have hbound : ∀ y ∈ xs, y < 2 ^ (ef.lower_bits + ef.upper_bits) := by
    intro y hy
    rw [hub, hlb, hu]
    exact mem_lt_two_pow hs hne hy
  have hgetDinf : ∀ i (hi : i < xs.length),
      ef.inferiors.getD i 0 = xs[i] % 2 ^ ef.lower_bits := by
    intro i hi
    by_cases hl : 0 < ef.lower_bits
    · rw [hinf, if_pos hl, getD_map _ hi]
    · have hl0 : ef.lower_bits = 0 := by omega
      rw [hinf, if_neg hl, hl0]
      simp [Nat.mod_one]
  by_cases h0 : 0 < ef.upper_bits
  · have hsupx : x >>> ef.lower_bits < 2 ^ ef.upper_bits := shiftRight_lt_of_lt hx
    set l := ef.lower_bits with hldef
    set h := ef.upper_bits with hhdef
    have hps_get : ef.superiors_prefixSums[x >>> l]?
        = some (xs.countP (fun y => y >>> l ≤ x >>> l)) := by
      rw [hps, hsup, if_neg (by omega)]
      exact accumulate_histogram_getElem? xs l (2 ^ h) (x >>> l) hsupx
    have hsup_get : ef.superiors[x >>> l]?
        = some (xs.countP (fun y => y >>> l == x >>> l)) := by
      rw [hsup, if_neg (by omega), List.getElem?_map, List.getElem?_range hsupx]
      rfl
    set a := xs.countP (fun y => decide (y >>> l < x >>> l)) with hadef
    set b := xs.countP (fun y => decide (y >>> l ≤ x >>> l)) with hbdef
    set c := xs.countP (fun y => y >>> l == x >>> l) with hcdef
    have hsplit : b = a + c := countP_up_le_split xs l (x >>> l)
    have hble : b ≤ xs.length := List.countP_le_length _
    have hrange_mid : pyRange (b - c) b = List.range' a c := by
      rw [pyRange]
      congr 1 <;> omega
    have hrangedec : List.range xs.length
        = List.range' 0 a ++ List.range' a c ++
          List.range' (a + c) (xs.length - (a + c)) := by
      rw [List.range_eq_range']
      symm
      have e1 := List.range'_append 0 a c 1
      simp only [Nat.zero_add, Nat.one_mul] at e1
      have e2 := List.range'_append 0 (a + c) (xs.length - (a + c)) 1
      simp only [Nat.zero_add, Nat.one_mul] at e2
      rw [e1, Nat.add_comm c a, e2]
      congr 1
      omega
    -- pointwise description of the occurrence predicate
    have hocc_false_lo : ∀ i ∈ List.range' 0 a, (xs.getD i 0 == x) = false := by
      intro i hi
      rw [List.mem_range'] at hi
      obtain ⟨j, hj, rfl⟩ := hi
      have hia : 0 + 1 * j < a := by omega
      have hin : 0 + 1 * j < xs.length := by omega
      rw [getD_eq_getElem0 hin]
      simp only [beq_eq_false_iff_ne, ne_eq]
      intro heqx
      have hw := (up_eq_iff_window hs hin l (x >>> l)).mp (by rw [heqx])
      omega
    have hocc_false_hi : ∀ i ∈ List.range' (a + c) (xs.length - (a + c)),
        (xs.getD i 0 == x) = false := by
      intro i hi
      rw [List.mem_range'] at hi
      obtain ⟨j, hj, rfl⟩ := hi
      have hin : (a + c) + 1 * j < xs.length := by omega
      rw [getD_eq_getElem0 hin]
      simp only [beq_eq_false_iff_ne, ne_eq]
      intro heqx
      have hw := (up_eq_iff_window hs hin l (x >>> l)).mp (by rw [heqx])
      omega
    have hnil1 : (List.range' 0 a).filter (fun i => xs.getD i 0 == x) = [] :=
      List.filter_eq_nil_iff.mpr (fun i hi => by
        rw [hocc_false_lo i hi]
        exact Bool.false_ne_true)
    have hnil3 : (List.range' (a + c) (xs.length - (a + c))).filter
        (fun i => xs.getD i 0 == x) = [] :=
      List.filter_eq_nil_iff.mpr (fun i hi => by
        rw [hocc_false_hi i hi]
        exact Bool.false_ne_true)
    have hocc : occIdx xs x
        = (List.range' a c).filter (fun i => xs.getD i 0 == x) := by
      rw [occIdx, hrangedec, List.filter_append, List.filter_append,
        hnil1, hnil3, List.nil_append, List.append_nil]
    have hmid_window : ∀ i ∈ List.range' a c, a ≤ i ∧ i < b ∧ i < xs.length := by
      intro i hi
      rw [List.mem_range'] at hi
      obtain ⟨j, hj, rfl⟩ := hi
      omega
    rw [EliasFano.rank]
    simp only [← hldef, ← hhdef, hinfx, if_pos h0, hps_get, hsup_get]
    by_cases hl : 0 < l
    · rw [if_pos hl]
      refine congrArg some ?_
      rw [hrange_mid, hocc]
      apply List.filter_congr
      intro i hi
      obtain ⟨hia, hib, hin⟩ := hmid_window i hi
      have hwin := (up_eq_iff_window hs hin l (x >>> l)).mpr ⟨hia, hib⟩
      rw [hgetDinf i hin, getD_eq_getElem0 hin]
      by_cases heqx : xs[i] = x
      · simp [heqx]
      · have hmodne : ¬ xs[i] % 2 ^ l = x % 2 ^ l := by
          intro hmod
          exact heqx ((eq_iff_mod_eq hwin).mpr hmod)
        simp [heqx, hmodne]
    · rw [if_neg hl]
      refine congrArg some ?_
      have hl0 : l = 0 := by omega
      rw [hrange_mid, hocc]
      symm
      apply List.filter_eq_self.mpr
      intro i hi
      obtain ⟨hia, hib, hin⟩ := hmid_window i hi
      have hwin := (up_eq_iff_window hs hin l (x >>> l)).mpr ⟨hia, hib⟩
      rw [hl0] at hwin
      simp only [Nat.shiftRight_zero] at hwin
      rw [getD_eq_getElem0 hin]
      simp [hwin]
  · -- upper_bits = 0: a single element, compared through its lower half
    have hn1 : xs.length = 1 := by
      have hpos : 0 < xs.length := List.length_pos.mpr hne
      by_contra hne1
      have h2 : 2 ≤ xs.length := by omega
      have := Nat.clog_pos (by norm_num : 1 < 2) h2
      rw [← hub] at this
      omega
    have hl : 0 < ef.lower_bits := by
      rw [hlb, hu, hn1, Nat.div_one, Nat.log_pow (by norm_num : 1 < 2)]
      omega
    have hxl : x < 2 ^ ef.lower_bits := by
      have := hx
      have hh0 : ef.upper_bits = 0 := by omega
      rw [hh0, Nat.add_zero] at this
      exact this
    rw [EliasFano.rank]
    simp only [hinfx, if_neg h0, if_pos hl]
    refine congrArg some ?_
    rw [locate, occIdx, hinf, if_pos hl, List.length_map]
    apply List.filter_congr
    intro i hi
    rw [List.mem_range] at hi
    have hxi : xs[i] < 2 ^ ef.lower_bits := by
      have hb := hbound xs[i] (List.getElem_mem hi)
      have hh0 : ef.upper_bits = 0 := by omega
      rw [hh0, Nat.add_zero] at hb
      exact hb
    rw [getD_map _ hi, getD_eq_getElem0 hi, Nat.mod_eq_of_lt hxi,
      Nat.mod_eq_of_lt hxl]

/-! ## Bitwise masking distributes over the upper/lower split -/

/-- Bitwise `and` commutes with taking upper halves. -/
lemma shiftRight_and_distrib (y z l : ℕ) :
    (y &&& z) >>> l = (y >>> l) &&& (z >>> l) := by
  apply Nat.eq_of_testBit_eq
  intro i
  simp [Nat.testBit_shiftRight, Nat.testBit_and]

/-- Bitwise `and` commutes with taking lower halves. -/
lemma mod_two_pow_and_distrib (y z l : ℕ) :
    (y &&& z) % 2 ^ l = (y % 2 ^ l) &&& (z % 2 ^ l) := by
  apply Nat.eq_of_testBit_eq
  intro i
  simp only [Nat.testBit_mod_two_pow, Nat.testBit_and]
  by_cases h : i < l <;> simp [h]

/-- Equality of naturals is equality of both halves. -/
lemma eq_iff_parts {a b : ℕ} (l : ℕ) :
    a = b ↔ (a >>> l = b >>> l ∧ a % 2 ^ l = b % 2 ^ l) := by
  constructor
  · rintro rfl
    exact ⟨rfl, rfl⟩
  · rintro ⟨h1, h2⟩
    exact (eq_iff_mod_eq h1).mpr h2

/-- Restricting the index list of a bucket walk to the non-trivial entries
does not change the concatenation, bucket by bucket. -/
lemma flatten_map_filter_eq {L : List ℕ} {p : ℕ → Bool} {g : ℕ → List ℕ} :
    ((L.filter p).map g).flatten
      = (L.map (fun s => if p s = true then g s else [])).flatten := by
  induction L with
  | nil => rfl
  | cons a tl ih =>
    by_cases hpa : p a = true <;> simp [List.filter_cons, hpa, ih]

/-- Correctness of `match` when both bit widths are positive: the yielded
elements are exactly the stored elements agreeing with `value` on the bits
set in `ignore`, in storage (hence ascending) order. -/
lemma match_eq {xs : List ℕ} (hs : xs.Sorted (· ≤ ·)) (hne : xs ≠ [])
    {ef : EliasFano} (hof : EliasFano.ofList xs = some ef)
    (hh : 0 < ef.upper_bits) (hl : 0 < ef.lower_bits) (value ignore : ℕ) :
    ef.match' value ignore
      = xs.filter (fun y => y &&& ignore == value &&& ignore) := by
  obtain ⟨ef2, hof2, hn, hub, hu, hlb, hinf, hsup, hps⟩ := ofList_spec hs hne
  rw [hof] at hof2
  injection hof2 with heq
  subst heq
  set l := ef.lower_bits with hldef
  set h := ef.upper_bits with hhdef
  have hbound : ∀ y ∈ xs, y < 2 ^ (l + h) := by
    intro y hy
    rw [hub, hlb, hu]
    exact mem_lt_two_pow hs hne hy
  have hsupgetD : ∀ s, s < 2 ^ h →
      ef.superiors.getD s 0 = xs.countP (fun x => x >>> l == s) := by
    intro s hsm
    rw [hsup, if_neg (by omega), List.getD_eq_getElem?_getD, List.getElem?_map,
      List.getElem?_range hsm]
    rfl
  have hpsgetD : ∀ s, s < 2 ^ h →
      ef.superiors_prefixSums.getD s 0
        = xs.countP (fun x => decide (x >>> l ≤ s)) := by
    intro s hsm
    rw [hps, hsup, if_neg (by omega), List.getD_eq_getElem?_getD,
      accumulate_histogram_getElem? xs l (2 ^ h) s hsm]
    rfl
  have hsuplen : ef.superiors.length = 2 ^ h := by
    rw [hsup, if_neg (by omega), List.length_map, List.length_range]
  have hlocate : locate (fun cnt => 0 < cnt) ef.superiors
      = (List.range (2 ^ h)).filter
          (fun s => 0 < xs.countP (fun x => x >>> l == s)) := by
    rw [locate, hsuplen]
    apply List.filter_congr
    intro s hsm
    rw [List.mem_range] at hsm
    rw [hsupgetD s hsm]
  -- the desired filter, decomposed into buckets
  have hfilter_sorted : (xs.filter
      (fun y => y &&& ignore == value &&& ignore)).Sorted (· ≤ ·) :=
    hs.filter _
  have hfilter_bound : ∀ y ∈ xs.filter (fun y => y &&& ignore == value &&& ignore),
      0 ≤ y >>> l ∧ y >>> l < 0 + 2 ^ h := by
    intro y hy
    have hmem : y ∈ xs := List.mem_of_mem_filter hy
    exact ⟨Nat.zero_le _, by
      have := shiftRight_lt_of_lt (hbound y hmem)
      omega⟩
  have hfb := flatten_buckets (l := l) (2 ^ h) 0
    (xs.filter (fun y => y &&& ignore == value &&& ignore))
    hfilter_sorted hfilter_bound
  rw [EliasFano.match']
  simp only [← hldef, ← hhdef, if_pos hh]
  rw [hlocate, List.filter_filter, flatten_map_filter_eq]
  rw [← List.range_eq_range'] at hfb
  rw [← hfb]
  apply congrArg List.flatten
  apply List.map_congr_left
  intro s hsm
  rw [List.mem_range] at hsm
  -- per-bucket comparison
  have hbucket_comm : (xs.filter (fun y => y &&& ignore == value &&& ignore)).filter
      (fun x => x >>> l == s)
      = (xs.filter (fun x => x >>> l == s)).filter
          (fun y => y &&& ignore == value &&& ignore) := by
    rw [List.filter_filter, List.filter_filter]
    apply List.filter_congr
    intro y _
    rw [Bool.and_comm]
  rw [hbucket_comm]
  set B := xs.filter (fun x => x >>> l == s) with hBdef
  have hBup : ∀ y ∈ B, y >>> l = s := by
    intro y hy
    have := (List.mem_filter.mp hy).2
    simpa using this
  have hcond_split : ∀ y ∈ B,
      (y &&& ignore == value &&& ignore)
        = ((s &&& ignore >>> l == value >>> l &&& ignore >>> l) &&
            (y % 2 ^ l &&& ignore % 2 ^ l
              == value % 2 ^ l &&& ignore % 2 ^ l)) := by
    intro y hy
    have hys := hBup y hy
    have hiff : (y &&& ignore = value &&& ignore)
        ↔ ((s &&& ignore >>> l = value >>> l &&& ignore >>> l) ∧
            (y % 2 ^ l &&& ignore % 2 ^ l
              = value % 2 ^ l &&& ignore % 2 ^ l)) := by
      rw [eq_iff_parts l, shiftRight_and_distrib, shiftRight_and_distrib,
        mod_two_pow_and_distrib, mod_two_pow_and_distrib, hys]
    by_cases hcond : y &&& ignore = value &&& ignore
    · obtain ⟨h1, h2⟩ := hiff.mp hcond
      simp [hcond, h1, h2]
    · have e1 : (y &&& ignore == value &&& ignore) = false := by
        simp only [beq_eq_false_iff_ne, ne_eq]
        exact hcond
      rcases Decidable.not_and_iff_or_not.mp (hiff.not.mp hcond) with h1 | h1
      · have e2 : (s &&& ignore >>> l == value >>> l &&& ignore >>> l) = false := by
          simp only [beq_eq_false_iff_ne, ne_eq]
          exact h1
        rw [e1, e2, Bool.false_and]
      · have e2 : (y % 2 ^ l &&& ignore % 2 ^ l
            == value % 2 ^ l &&& ignore % 2 ^ l) = false := by
          simp only [beq_eq_false_iff_ne, ne_eq]
          exact h1
        rw [e1, e2, Bool.and_false]
  have hmaskv : value &&& (2 ^ l - 1) = value % 2 ^ l :=
    Nat.and_pow_two_sub_one_eq_mod value l
  have hmaski : ignore &&& (2 ^ l - 1) = ignore % 2 ^ l :=
    Nat.and_pow_two_sub_one_eq_mod ignore l
  by_cases hsupcond : (s &&& ignore >>> l == value >>> l &&& ignore >>> l) = true
  · by_cases hcnt : 0 < xs.countP (fun x => x >>> l == s)
    · rw [if_pos (by simp [hcnt, hsupcond])]
      simp only [hpsgetD s hsm, hsupgetD s hsm, hmaskv, hmaski]
      rw [hinf, if_pos hl]
      have hcntlt : xs.countP (fun x => decide (x >>> l ≤ s))
            - xs.countP (fun x => x >>> l == s)
          = xs.countP (fun x => decide (x >>> l < s)) := by
        have := countP_up_le_split xs l s
        omega
      rw [islice, ← List.map_drop, ← List.map_take, hcntlt,
        drop_take_bucket hs l s, ← hBdef, List.filter_map, List.map_map]
      have hfcongr : ∀ y ∈ B,
          ((fun inf => inf &&& ignore % 2 ^ l == value % 2 ^ l &&& ignore % 2 ^ l) ∘
            fun x => x % 2 ^ l) y
            = (y &&& ignore == value &&& ignore) := by
        intro y hy
        rw [hcond_split y hy, hsupcond]
        simp [Function.comp, mod_two_pow_and_distrib]
      rw [List.filter_congr hfcongr]
      have hid : ∀ y ∈ B.filter (fun y => y &&& ignore == value &&& ignore),
          ((fun inf => s <<< l + inf) ∘ fun x => x % 2 ^ l) y = y := by
        intro y hy
        have hys := hBup y (List.mem_of_mem_filter hy)
        simp only [Function.comp]
        rw [← hys, Nat.shiftLeft_eq, Nat.shiftRight_eq_div_pow, Nat.mul_comm]
        exact Nat.div_add_mod y (2 ^ l)
      rw [List.map_congr_left hid]
      simp
    · rw [if_neg (by simp [hcnt])]
      have hB0 : B = [] := by
        have : (xs.filter (fun x => x >>> l == s)).length = 0 := by
          rw [← List.countP_eq_length_filter]
          omega
        rw [hBdef]
        exact List.length_eq_zero.mp this
      rw [hB0]
      rfl
  · rw [if_neg (by simp [hsupcond])]
    have hsc : (s &&& ignore >>> l == value >>> l &&& ignore >>> l) = false := by
      simp only [Bool.not_eq_true] at hsupcond
      exact hsupcond
    symm
    rw [List.filter_eq_nil_iff]
    intro y hy
    rw [hcond_split y hy, hsc, Bool.false_and]
    simp

/-! ## Iteration -/

/-- The shared-iterator bucket walk of `__iter__` reconstructs the sorted
list: walking the non-empty buckets of `[s0, s0+m)` in order, each bucket
consuming its own count of lower halves, yields the elements themselves. -/
lemma iterChunks_eq {l : ℕ} {superiors : List ℕ} :
    ∀ (m s0 : ℕ) (xs : List ℕ), xs.Sorted (· ≤ ·) →
      (∀ x ∈ xs, s0 ≤ x >>> l ∧ x >>> l < s0 + m) →
      (∀ s, s0 ≤ s → s < s0 + m →
        superiors.getD s 0 = xs.countP (fun x => x >>> l == s)) →
      EliasFano.iterChunks superiors l (xs.map (fun x => x % 2 ^ l))
        ((List.range' s0 m).filter (fun s => 0 < superiors.getD s 0)) = xs := by
  intro m
  induction m with
  | zero =>
    intro s0 xs _ hb _
    have hnil : xs = [] := by
      cases xs with
      | nil => rfl
      | cons a tl =>
        have := hb a (by simp)
        omega
    simp [hnil, EliasFano.iterChunks]
  | succ m ih =>
    intro s0 xs hs hb hcnt
    have hc0 := hcnt s0 (le_refl _) (by omega)
    have hcle : xs.countP (fun x => decide (x >>> l ≤ s0))
        = xs.countP (fun x => x >>> l == s0) := by
      have hlt0 : xs.countP (fun x => decide (x >>> l < s0)) = 0 := by
        rw [List.countP_eq_zero]
        intro a ha
        have := (hb a ha).1
        simp only [decide_eq_true_eq]
        omega
      have := countP_up_le_split xs l s0
      omega
    have hDWdrop : xs.drop (xs.countP (fun x => x >>> l == s0))
        = xs.dropWhile (fun x => decide (x >>> l ≤ s0)) := by
      have hTW := filter_eq_takeWhile_mono (up_le_mono l s0) hs
      have hlen : (xs.takeWhile (fun x => decide (x >>> l ≤ s0))).length
          = xs.countP (fun x => x >>> l == s0) := by
        rw [← hTW, ← List.countP_eq_length_filter, hcle]
      rw [← hlen]
      exact drop_length_takeWhile _ xs
    have hbk : xs.filter (fun x => x >>> l == s0)
        = xs.takeWhile (fun x => decide (x >>> l ≤ s0)) := by
      rw [← filter_eq_takeWhile_mono (up_le_mono l s0) hs]
      apply List.filter_congr
      intro x hx
      have h1 := (hb x hx).1
      by_cases hxe : x >>> l = s0
      · simp [hxe]
      · have hgt : ¬ (x >>> l ≤ s0) := by omega
        simp [hxe, hgt]
    have hDWs : (xs.dropWhile (fun x => decide (x >>> l ≤ s0))).Sorted (· ≤ ·) :=
      List.Pairwise.sublist (List.dropWhile_sublist _) hs
    have hDWb : ∀ x ∈ xs.dropWhile (fun x => decide (x >>> l ≤ s0)),
        s0 + 1 ≤ x >>> l ∧ x >>> l < (s0 + 1) + m := by
      intro x hx
      have hmem : x ∈ xs := (List.dropWhile_sublist _).subset hx
      have h1 := hb x hmem
      have h2 := dropWhile_all_false (up_le_mono l s0) hs x hx
      simp only [decide_eq_false_iff_not, not_le] at h2
      omega
    have hDWcnt : ∀ s, s0 + 1 ≤ s → s < (s0 + 1) + m →
        superiors.getD s 0
          = (xs.dropWhile (fun x => decide (x >>> l ≤ s0))).countP
              (fun x => x >>> l == s) := by
      intro s h1 h2
      rw [hcnt s (by omega) (by omega)]
      conv_lhs => rw [← List.takeWhile_append_dropWhile
        (fun x => decide (x >>> l ≤ s0)) xs]
      rw [List.countP_append]
      have hz : (xs.takeWhile (fun x => decide (x >>> l ≤ s0))).countP
          (fun x => x >>> l == s) = 0 := by
        rw [List.countP_eq_zero]
        intro a ha
        have := List.mem_takeWhile_imp ha
        simp only [decide_eq_true_eq] at this
        simp only [beq_iff_eq]
        omega
      omega
    rw [List.range'_succ, List.filter_cons]
    by_cases hpos : 0 < superiors.getD s0 0
    · rw [if_pos (by simpa using hpos)]
      simp only [EliasFano.iterChunks]
      rw [hc0, ← List.map_take, ← List.map_drop, hDWdrop, List.map_map]
      have htake : xs.take (xs.countP (fun x => x >>> l == s0))
          = xs.filter (fun x => x >>> l == s0) := by
        have hdt := drop_take_bucket hs l s0
        have hlt0 : xs.countP (fun x => decide (x >>> l < s0)) = 0 := by
          rw [List.countP_eq_zero]
          intro a ha
          have := (hb a ha).1
          simp only [decide_eq_true_eq]
          omega
        rw [hlt0, List.drop_zero, Nat.sub_zero, hcle] at hdt
        exact hdt
      rw [htake]
      have hid : ∀ y ∈ xs.filter (fun x => x >>> l == s0),
          ((fun inf => s0 <<< l + inf) ∘ fun x => x % 2 ^ l) y = y := by
        intro y hy
        have hys : y >>> l = s0 := by
          have := (List.mem_filter.mp hy).2
          simpa using this
        simp only [Function.comp]
        rw [← hys, Nat.shiftLeft_eq, Nat.shiftRight_eq_div_pow, Nat.mul_comm]
        exact Nat.div_add_mod y (2 ^ l)
      rw [List.map_congr_left hid,
        ih (s0 + 1) (xs.dropWhile (fun x => decide (x >>> l ≤ s0))) hDWs hDWb hDWcnt]
      have hmapid : (xs.filter (fun x => x >>> l == s0)).map (fun a => a)
          = xs.filter (fun x => x >>> l == s0) := by
        simp
      rw [hmapid, hbk, List.takeWhile_append_dropWhile]
    · rw [if_neg (by simpa using hpos)]
      have hcnt0 : xs.countP (fun x => x >>> l == s0) = 0 := by omega
      have hb2 : ∀ x ∈ xs, s0 + 1 ≤ x >>> l ∧ x >>> l < (s0 + 1) + m := by
        intro x hx
        have h1 := hb x hx
        have h2 : ¬ (x >>> l = s0) := by
          intro he
          have := List.countP_eq_zero.mp hcnt0 x hx
          simp [he] at this
        omega
      exact ih (s0 + 1) xs hs hb2 (fun s h1 h2 => hcnt s (by omega) (by omega))

/-! ## Bit length -/

/-- Mapping `+1` adds the length to the sum. -/
lemma sum_map_add_one (lst : List ℕ) :
    (lst.map (fun c => c + 1)).sum = lst.sum + lst.length := by
  induction lst with
  | nil => rfl
  | cons a tl ih =>
    simp [ih]
    omega

/-- The bucket histogram counts every element exactly once. -/
lemma histogram_sum {xs : List ℕ} {l h : ℕ} (hb : ∀ x ∈ xs, x >>> l < 2 ^ h) :
    ((List.range (2 ^ h)).map (fun s => xs.countP (fun x => x >>> l == s))).sum
      = xs.length := by
  have hpos : 0 < 2 ^ h := Nat.pos_pow_of_pos _ (by norm_num)
  have h1 := sum_range_succ_countP xs l (2 ^ h - 1)
  rw [show 2 ^ h - 1 + 1 = 2 ^ h by omega] at h1
  rw [h1, List.countP_eq_length]
  intro x hx
  have := hb x hx
  simp only [decide_eq_true_eq]
  omega

/-- `bit_length` on a structure with a non-trivial upper vector. -/
lemma bit_length_eq {xs : List ℕ} (hs : xs.Sorted (· ≤ ·)) (hne : xs ≠ [])
    {ef : EliasFano} (hof : EliasFano.ofList xs = some ef)
    (hh : 0 < ef.upper_bits) :
    ef.bit_length = (xs.length + 2 ^ ef.upper_bits)
      + xs.length * ef.lower_bits := by
  obtain ⟨ef2, hof2, hn, hub, hu, hlb, hinf, hsup, hps⟩ := ofList_spec hs hne
  rw [hof] at hof2
  injection hof2 with heq
  subst heq
  have hb : ∀ x ∈ xs, x >>> ef.lower_bits < 2 ^ ef.upper_bits := by
    intro x hx
    apply shiftRight_lt_of_lt
    rw [hub, hlb, hu]
    exact mem_lt_two_pow hs hne hx
  rw [EliasFano.bit_length, hsup, if_neg (by omega), List.map_map]
  have hcomp : ((List.range (2 ^ ef.upper_bits)).map
      ((fun ones => ones + 1) ∘ fun s => xs.countP (fun x => x >>> ef.lower_bits == s))).sum
      = ((List.range (2 ^ ef.upper_bits)).map
        (fun s => xs.countP (fun x => x >>> ef.lower_bits == s))).sum
        + 2 ^ ef.upper_bits := by
    rw [← List.map_map, sum_map_add_one, List.length_map, List.length_range]
  rw [hcomp, histogram_sum hb]
  by_cases hl : 0 < ef.lower_bits
  · rw [hinf, if_pos hl, List.length_map]
    ring
  · have hl0 : ef.lower_bits = 0 := by omega
    rw [hinf, if_neg hl, hl0]
    simp

/-! ## Claims about the core `EliasFano` codec -/

/-- C1: for every non-empty monotone non-decreasing sequence `X` of
unsigned integers, the Elias-Fano structure constructed from `X` satisfies
`select(i) = X[i]` for every `i ∈ [0, n)`, and `select(k)` raises an
index-out-of-range error (modelled as `none`) for every `k ∉ [0, n)`. -/
theorem C1_select_spec (xs : List ℕ) (hne : xs ≠ []) (hs : xs.Sorted (· ≤ ·)) :
    ∃ ef : EliasFano, EliasFano.ofList xs = some ef ∧
      (∀ i (hi : i < xs.length), ef.select i = some xs[i]) ∧
      (∀ k, xs.length ≤ k → ef.select k = none) := by
  obtain ⟨ef, hof, hn, -, -, -, -, -, -⟩ := ofList_spec hs hne
  exact ⟨ef, hof, fun i hi => select_eq hs hne hof hi,
    fun k hk => select_none (by omega)⟩

/-- Witness for C1 at the concrete sorted input `[0, 0, 1, 1, 1, 4]`. -/
theorem C1_select_witness :
    ∃ ef : EliasFano, EliasFano.ofList [0, 0, 1, 1, 1, 4] = some ef ∧
      (∀ i (hi : i < [0, 0, 1, 1, 1, 4].length),
        ef.select i = some [0, 0, 1, 1, 1, 4][i]) ∧
      (∀ k, [0, 0, 1, 1, 1, 4].length ≤ k → ef.select k = none) :=
  C1_select_spec [0, 0, 1, 1, 1, 4] (by decide) (by decide)

/-- C2 counterexample: the unsorted input `[1, 0]` is not rejected;
`EliasFano.__init__` silently succeeds on it. -/
theorem C2_construction_counterexample :
    ¬ List.Sorted (· ≤ ·) [1, 0] ∧ (∃ ef, EliasFano.ofList [1, 0] = some ef) :=
  ⟨by decide, ⟨_, rfl⟩⟩

/-- C2 (amended): construction on the empty sequence is rejected with an
explicit error (`IndexError` on `sorted_integers[-1]`), but sortedness of
the input is not validated: construction can silently succeed on
non-monotone input such as `[1, 0]`. -/
theorem C2_construction_amended :
    EliasFano.ofList [] = none ∧ (∃ ef, EliasFano.ofList [1, 0] = some ef) :=
  ⟨rfl, ⟨_, rfl⟩⟩

/-- C4 counterexample: on the structure for `[0, 2]` (where `ℓ = 1`,
`h = 1`), `rank 4` raises `IndexError` (modelled `none`) although `4` is
absent and greater than every stored element, instead of returning the
empty range. -/
theorem C4_rank_counterexample :
    ∃ ef, EliasFano.ofList [0, 2] = some ef ∧ ef.rank 4 = none ∧
      occIdx [0, 2] 4 = [] :=
  ⟨_, rfl, by decide, by decide⟩

/-- C4 (amended): for every `x` below `2^(ℓ+h)` (which covers every stored
element and every absent value whose upper half indexes the histogram),
`rank x` returns exactly the contiguous list of indices at which `x`
occurs, and the empty list when `x` is absent; for `x ≥ 2^(ℓ+h)` the
method can raise instead. -/
theorem C4_rank_spec (xs : List ℕ) (hne : xs ≠ []) (hs : xs.Sorted (· ≤ ·)) :
    ∃ ef : EliasFano, EliasFano.ofList xs = some ef ∧
      ∀ x, x < 2 ^ (ef.lower_bits + ef.upper_bits) →
        ef.rank x = some (occIdx xs x) := by
  obtain ⟨ef, hof, -, -, -, -, -, -, -⟩ := ofList_spec hs hne
  exact ⟨ef, hof, fun x hx => rank_eq hs hne hof hx⟩

/-- Witness for C4 (amended) at the concrete sorted input `[0, 2]`. -/
theorem C4_rank_witness :
    ∃ ef : EliasFano, EliasFano.ofList [0, 2] = some ef ∧
      ∀ x, x < 2 ^ (ef.lower_bits + ef.upper_bits) →
        ef.rank x = some (occIdx [0, 2] x) :=
  C4_rank_spec [0, 2] (by decide) (by decide)

/-- C5: the claim promises `nextGEQ(x)` returns the smallest stored
`y ≥ x` whenever `x ≤ select(n−1)`; on the structure for `[0, 1]`
(`ℓ = 0`), `1` is stored — `select(1) = 1` — yet `nextGEQ 1` indexes the
empty `_inferiors` list and raises `IndexError` (modelled `none`). -/
theorem C5_nextGEQ_bug :
    ∃ ef, EliasFano.ofList [0, 1] = some ef ∧ ef.select 1 = some 1 ∧
      ef.nextGEQ 1 = none :=
  ⟨_, rfl, by decide, by decide⟩

/-- C6 counterexample: on the single-element structure for `[1]`,
`match(3, 3)` yields `[1]` although `1 & 3 ≠ 3 & 3`, because the
`upper_bits = 0` branch compares only lower halves. -/
theorem C6_match_counterexample :
    (∃ ef, EliasFano.ofList [1] = some ef ∧ ef.match' 3 3 = [1] ∧
      [1].filter (fun y => y &&& 3 == 3 &&& 3) = []) ∧
    (∃ ef, EliasFano.ofList [0, 1] = some ef ∧ ef.match' 0 0 = [] ∧
      [0, 1].filter (fun y => y &&& 0 == 0 &&& 0) = [0, 1]) :=
  ⟨⟨_, rfl, by decide, by decide⟩, ⟨_, rfl, by decide, by decide⟩⟩

/-- With `ℓ = 0` the `_inferiors` list is empty, so within every matching
bucket the `islice` over it is empty and `match` yields nothing at all. -/
lemma match_lb_zero {xs : List ℕ} (hs : xs.Sorted (· ≤ ·)) (hne : xs ≠ [])
    {ef : EliasFano} (hof : EliasFano.ofList xs = some ef)
    (hub : 0 < ef.upper_bits) (hlb : ef.lower_bits = 0) :
    ∀ value ignore, ef.match' value ignore = [] := by
  obtain ⟨ef2, hof2, hn, hub2, hu2, hlb2, hinf, hsup, hps⟩ := ofList_spec hs hne
  rw [hof] at hof2
  injection hof2 with heq
  subst heq
  have hinf0 : ef.inferiors = [] := by
    rw [hinf, if_neg]
    omega
  intro value ignore
  simp only [EliasFano.match', if_pos hub, hinf0]
  rw [List.flatten_eq_nil_iff]
  intro l hl
  obtain ⟨s, hsmem, rfl⟩ := List.mem_map.mp hl
  simp [islice]

/-- C6 (amended): on structures with `n ≥ 2`, when `ℓ > 0`
`match(value, ignore)` yields exactly the stored elements `y` with
`(y & ignore) == (value & ignore)`, in storage (hence ascending) order;
when `ℓ = 0` it yields nothing at all, because every matching bucket
slices the empty `_inferiors` list; and for `n = 1` the result can be
wrong (see the counterexample). -/
theorem C6_match_spec (xs : List ℕ) (hne : xs ≠ []) (hs : xs.Sorted (· ≤ ·))
    (h2 : 2 ≤ xs.length) :
    ∃ ef : EliasFano, EliasFano.ofList xs = some ef ∧
      (0 < ef.lower_bits → ∀ value ignore,
        ef.match' value ignore
          = xs.filter (fun y => y &&& ignore == value &&& ignore)) ∧
      (ef.lower_bits = 0 → ∀ value ignore, ef.match' value ignore = []) := by
  obtain ⟨ef, hof, -, hub, -, -, -, -, -⟩ := ofList_spec hs hne
  have hh : 0 < ef.upper_bits := by
    rw [hub]
    exact Nat.clog_pos (by norm_num) h2
  exact ⟨ef, hof, fun hl value ignore => match_eq hs hne hof hh hl value ignore,
    fun hl0 => match_lb_zero hs hne hof hh hl0⟩

/-- Witness for C6 (amended) at the concrete sorted input `[0, 5]`
(where `ℓ = 2 > 0`, so the first branch is the live one). -/
theorem C6_match_witness :
    ∃ ef : EliasFano, EliasFano.ofList [0, 5] = some ef ∧
      (0 < ef.lower_bits → ∀ value ignore,
        ef.match' value ignore
          = [0, 5].filter (fun y => y &&& ignore == value &&& ignore)) ∧
      (ef.lower_bits = 0 → ∀ value ignore, ef.match' value ignore = []) :=
  C6_match_spec [0, 5] (by decide) (by decide) (by decide)

/-- C7 counterexample: for the singleton input `[1]` (`n = 1`, `h = 0`,
`ℓ = 1`), `bit_length()` returns `1`, not `(n + 2^h) + n·ℓ = 3`: the
histogram list is empty when `h = 0`, so the `n + 2^h` term is lost. -/
theorem C7_bit_length_counterexample :
    ∃ ef, EliasFano.ofList [1] = some ef ∧
      ef.bit_length ≠ ([1].length + 2 ^ ef.upper_bits)
        + [1].length * ef.lower_bits :=
  ⟨_, rfl, by decide⟩

/-- C7 (amended): for every sorted input of length `n ≥ 2` (so that the
upper vector is non-trivial), `bit_length()` returns
`(n + 2^h) + n·ℓ`; for `n = 1` the `n + 2^h` term is missing. -/
theorem C7_bit_length_spec (xs : List ℕ) (hs : xs.Sorted (· ≤ ·))
    (h2 : 2 ≤ xs.length) :
    ∃ ef : EliasFano, EliasFano.ofList xs = some ef ∧
      ef.bit_length = (xs.length + 2 ^ ef.upper_bits)
        + xs.length * ef.lower_bits := by
  have hne : xs ≠ [] := by
    intro h
    rw [h] at h2
    simp at h2
  obtain ⟨ef, hof, -, hub, -, -, -, -, -⟩ := ofList_spec hs hne
  have hh : 0 < ef.upper_bits := by
    rw [hub]
    exact Nat.clog_pos (by norm_num) h2
  exact ⟨ef, hof, bit_length_eq hs hne hof hh⟩

/-- Witness for C7 (amended) at the concrete sorted input
`[0, 0, 1, 1, 1, 4]` (`n = 6`, `h = 3`, `ℓ = 0`, bit length `14`). -/
theorem C7_bit_length_witness :
    ∃ ef : EliasFano, EliasFano.ofList [0, 0, 1, 1, 1, 4] = some ef ∧
      ef.bit_length = ([0, 0, 1, 1, 1, 4].length + 2 ^ ef.upper_bits)
        + [0, 0, 1, 1, 1, 4].length * ef.lower_bits :=
  C7_bit_length_spec [0, 0, 1, 1, 1, 4] (by decide) (by decide)

/-- C10 counterexample: iterating the structure for `[0, 0]` (`n = 2`,
`ℓ = 0`) yields `[0]`: the duplicate is collapsed, so the iteration has
one item rather than `n = 2`. -/
theorem C10_iter_counterexample :
    ∃ ef, EliasFano.ofList [0, 0] = some ef ∧ ef.iter = some [0] ∧
      [0] ≠ [0, 0] :=
  ⟨_, rfl, by decide, by decide⟩

/-- C10 (amended): for `n ≥ 2`, when `ℓ > 0` iteration is finite and
yields the stored sequence `X` in order with multiplicities (exactly `n`
items); when `ℓ = 0` it instead yields each distinct stored value once, in
strictly increasing order. -/
theorem C10_iter_spec (xs : List ℕ) (hs : xs.Sorted (· ≤ ·))
    (h2 : 2 ≤ xs.length) :
    ∃ ef : EliasFano, EliasFano.ofList xs = some ef ∧
      (0 < ef.lower_bits → ef.iter = some xs) ∧
      (ef.lower_bits = 0 → ∃ ds, ef.iter = some ds ∧ ds.Sorted (· < ·) ∧
        ∀ v, v ∈ ds ↔ v ∈ xs) := by
  have hne : xs ≠ [] := by
    intro h
    rw [h] at h2
    simp at h2
  obtain ⟨ef, hof, hn, hub, hu, hlb, hinf, hsup, hps⟩ := ofList_spec hs hne
  have hh : 0 < ef.upper_bits := by
    rw [hub]
    exact Nat.clog_pos (by norm_num) h2
  have hbound : ∀ x ∈ xs, x < 2 ^ (ef.lower_bits + ef.upper_bits) := by
    intro x hx
    rw [hub, hlb, hu]
    exact mem_lt_two_pow hs hne hx
  have hsuplen : ef.superiors.length = 2 ^ ef.upper_bits := by
    rw [hsup, if_neg (by omega), List.length_map, List.length_range]
  have hsupgetD : ∀ s, s < 2 ^ ef.upper_bits →
      ef.superiors.getD s 0
        = xs.countP (fun x => x >>> ef.lower_bits == s) := by
    intro s hsm
    rw [hsup, if_neg (by omega), List.getD_eq_getElem?_getD, List.getElem?_map,
      List.getElem?_range hsm]
    rfl
  refine ⟨ef, hof, ?_, ?_⟩
  · intro hl
    rw [EliasFano.iter, if_pos hh, if_pos hl, hinf, if_pos hl]
    refine congrArg some ?_
    have hloc : locate (fun cnt => 0 < cnt) ef.superiors
        = (List.range' 0 (2 ^ ef.upper_bits)).filter
            (fun s => 0 < ef.superiors.getD s 0) := by
      rw [locate, hsuplen, List.range_eq_range']
    rw [hloc]
    exact iterChunks_eq (2 ^ ef.upper_bits) 0 xs hs
      (fun x hx => ⟨Nat.zero_le _, by
        have := shiftRight_lt_of_lt (hbound x hx)
        omega⟩)
      (fun s _ h2s => hsupgetD s (by omega))
  · intro hl0
    rw [EliasFano.iter, if_pos hh, if_neg (by omega)]
    have hmap : (locate (fun cnt => 0 < cnt) ef.superiors).map
        (fun sup => sup <<< ef.lower_bits)
        = locate (fun cnt => 0 < cnt) ef.superiors := by
      rw [hl0]
      simp [Nat.shiftLeft_zero]
    refine ⟨_, rfl, ?_, ?_⟩
    · rw [hmap, locate]
      exact List.Pairwise.filter _ (List.pairwise_lt_range _)
    · intro v
      rw [hmap, locate, hsuplen]
      constructor
      · intro hv
        obtain ⟨hvr, hvp⟩ := List.mem_filter.mp hv
        rw [List.mem_range] at hvr
        rw [getD_eq_getElem0 (by omega : v < ef.superiors.length)] at hvp
        have hvp2 : 0 < ef.superiors.getD v 0 := by
          rw [getD_eq_getElem0 (by omega : v < ef.superiors.length)]
          simpa using hvp
        rw [hsupgetD v hvr] at hvp2
        obtain ⟨x, hx, he⟩ := List.countP_pos_iff.mp hvp2
        have hxv : x = v := by
          have := he
          rw [hl0] at this
          simpa [Nat.shiftRight_zero] using this
        rw [← hxv]
        exact hx
      · intro hv
        apply List.mem_filter.mpr
        have hvlt : v < 2 ^ ef.upper_bits := by
          have := shiftRight_lt_of_lt (hbound v hv)
          rw [hl0, Nat.shiftRight_zero] at this
          exact this
        refine ⟨List.mem_range.mpr hvlt, ?_⟩
        have hc : 0 < xs.countP (fun x => x >>> ef.lower_bits == v) :=
          List.countP_pos_iff.mpr ⟨v, hv, by simp [hl0, Nat.shiftRight_zero]⟩
        rw [getD_eq_getElem0 (by omega : v < ef.superiors.length)]
        have := hsupgetD v hvlt
        rw [getD_eq_getElem0 (by omega : v < ef.superiors.length)] at this
        rw [this]
        simpa using hc

/-! ## Serialization round trip -/

/-- The fixed-width binary string has the requested width. -/
lemma length_natToBits (w x : ℕ) : (natToBits w x).length = w := by
  induction w generalizing x with
  | zero => rfl
  | succ w ih => simp [natToBits, ih]

/-- Big-endian value of a snoc. -/
lemma bitsToNat_concat (bs : List Bool) (b : Bool) :
    bitsToNat (bs ++ [b]) = 2 * bitsToNat bs + b.toNat := by
  rw [bitsToNat, bitsToNat, List.foldl_append]
  rfl

/-- Re-padding the value of a bit string to its own length recovers the
string (the round trip of `int(s, 2)` and `"{0:0Nb}".format`). -/
lemma natToBits_bitsToNat : ∀ (bs : List Bool), natToBits bs.length (bitsToNat bs) = bs := by
  intro bs
  induction bs using List.reverseRecOn with
  | nil => rfl
  | append_singleton l a ih =>
    rw [bitsToNat_concat, List.length_append, List.length_singleton, natToBits]
    have h1 : (2 * bitsToNat l + a.toNat) / 2 = bitsToNat l := by
      cases a <;> simp [Bool.toNat] <;> omega
    have h2 : decide ((2 * bitsToNat l + a.toNat) % 2 = 1) = a := by
      cases a <;> simp [Bool.toNat] <;> omega
    rw [h1, h2, ih]

/-- Formatting a value below `2^w` at width `w` and reading it back is the
identity. -/
lemma bitsToNat_natToBits : ∀ (w x : ℕ), x < 2 ^ w →
    bitsToNat (natToBits w x) = x := by
  intro w
  induction w with
  | zero =>
    intro x hx
    have : x = 0 := by simpa using hx
    simp [this, natToBits, bitsToNat]
  | succ w ih =>
    intro x hx
    have hdiv : x / 2 < 2 ^ w := by
      rw [Nat.div_lt_iff_lt_mul (by norm_num)]
      calc x < 2 ^ (w + 1) := hx
        _ = 2 ^ w * 2 := by ring
    rw [natToBits, bitsToNat_concat, ih (x / 2) hdiv]
    have : (decide (x % 2 = 1)).toNat = x % 2 := by
      by_cases h : x % 2 = 1 <;> simp [h] <;> omega
    rw [this]
    omega

/-- Cutting the concatenation of equal-length chunks back into windows
recovers the chunks (fuel-level statement). -/
lemma chunkFuel_flatten {α : Type} {sz : ℕ} (hsz : sz ≠ 0) :
    ∀ (chunks : List (List α)) (fuel : ℕ),
      (∀ c ∈ chunks, c.length = sz) → chunks.flatten.length ≤ fuel →
      chunkFuel sz fuel chunks.flatten = chunks := by
  intro chunks
  induction chunks with
  | nil =>
    intro fuel _ _
    cases fuel <;> rfl
  | cons c rest ih =>
    intro fuel hlen hfuel
    have hc : c.length = sz := hlen c (by simp)
    have hcpos : 0 < c.length := by omega
    cases fuel with
    | zero =>
      exfalso
      rw [List.flatten_cons, List.length_append] at hfuel
      omega
    | succ fuel =>
      rw [List.flatten_cons]
      cases c with
      | nil => simp at hcpos
      | cons b cb =>
        rw [List.cons_append, chunkFuel]
        have htake : ((b :: cb) ++ rest.flatten).take sz = b :: cb := by
          rw [← hc]
          exact List.take_left _ _
        have hdrop : ((b :: cb) ++ rest.flatten).drop sz = rest.flatten := by
          rw [← hc]
          exact List.drop_left _ _
        rw [List.cons_append] at htake hdrop
        rw [htake, hdrop,
          ih fuel (fun d hd => hlen d (by simp [hd]))
            (by
              rw [List.flatten_cons, List.length_append] at hfuel
              omega)]

/-- Cutting the concatenation of equal-length chunks back into windows
recovers the chunks. -/
lemma chunkList_flatten {α : Type} {sz : ℕ} (hsz : sz ≠ 0)
    (chunks : List (List α)) (hlen : ∀ c ∈ chunks, c.length = sz) :
    chunkList sz chunks.flatten = chunks := by
  rw [chunkList, if_neg hsz]
  exact chunkFuel_flatten hsz chunks _ hlen le_rfl

/-- Splitting off one negated-unary bucket. -/
lemma splitAtFalse_bucket (c : ℕ) (rest : List Bool) :
    splitAtFalse (List.replicate c true ++ false :: rest)
      = List.replicate c true :: splitAtFalse rest := by
  induction c with
  | zero => simp [splitAtFalse]
  | succ c ih =>
    rw [List.replicate_succ, List.cons_append, splitAtFalse]
    rw [ih]

/-- Splitting the negated-unary stream of a count vector recovers the
buckets (plus the trailing empty piece after the last `0`). -/
lemma splitAtFalse_negUnary (counts : List ℕ) :
    splitAtFalse ((counts.map (fun c => List.replicate c true ++ [false])).flatten)
      = counts.map (fun c => List.replicate c true) ++ [[]] := by
  induction counts with
  | nil => rfl
  | cons c rest ih =>
    rw [List.map_cons, List.flatten_cons, List.append_assoc, List.singleton_append,
      splitAtFalse_bucket, ih]
    rfl

/-- The negated-unary stream of a count vector has
`sum + length` bits. -/
lemma negUnary_length (counts : List ℕ) :
    ((counts.map (fun c => List.replicate c true ++ [false])).flatten).length
      = counts.sum + counts.length := by
  induction counts with
  | nil => rfl
  | cons c rest ih =>
    simp [List.flatten_cons, ih]
    omega

/-- Sum of a constant map. -/
lemma sum_map_const (l : ℕ) (lst : List ℕ) :
    (lst.map (fun _ => l)).sum = lst.length * l := by
  induction lst with
  | nil => simp
  | cons a tl ih =>
    simp [ih]
    ring

/-- Round trip of the packed fixed-width lower vector: concatenating the
`ℓ`-bit strings of the values, reading the big number, re-padding to
`count·ℓ` bits and cutting into `ℓ`-bit windows recovers the values. -/
lemma lower_payload_roundtrip {l : ℕ} (hl : 0 < l) (infs : List ℕ)
    (hlt : ∀ i ∈ infs, i < 2 ^ l) :
    (chunkList l (natToBits (infs.length * l)
      (bitsToNat ((infs.map (fun inf => natToBits l inf)).flatten)))).map bitsToNat
      = infs := by
  have hflatlen : ((infs.map (fun inf => natToBits l inf)).flatten).length
      = infs.length * l := by
    rw [List.length_flatten, List.map_map]
    have hc : (infs.map (List.length ∘ fun inf => natToBits l inf))
        = infs.map (fun _ => l) := by
      apply List.map_congr_left
      intro inf _
      exact length_natToBits _ _
    rw [hc, sum_map_const]
  rw [← hflatlen, natToBits_bitsToNat,
    chunkList_flatten (by omega) _ (fun c hc => by
      obtain ⟨inf, _, rfl⟩ := List.mem_map.mp hc
      exact length_natToBits _ _),
    List.map_map]
  have hid : ∀ inf ∈ infs,
      (bitsToNat ∘ fun inf => natToBits l inf) inf = inf := by
    intro inf hm
    exact bitsToNat_natToBits _ _ (hlt inf hm)
  rw [List.map_congr_left hid]
  simp

/-- Round trip of the negated-unary upper vector: writing `1^c 0` per
bucket, reading the big number, re-padding to `sum + length` bits and
splitting at `0` bits recovers the count vector. -/
lemma upper_payload_roundtrip (sups : List ℕ) :
    ((splitAtFalse (natToBits (sups.sum + sups.length)
      (bitsToNat ((sups.map (fun c => List.replicate c true ++ [false])).flatten)))).map
        List.length).dropLast = sups := by
  rw [← negUnary_length, natToBits_bitsToNat, splitAtFalse_negUnary,
    List.map_append, List.map_map]
  simp only [List.map_cons, List.map_nil, List.length_nil]
  rw [List.dropLast_concat]
  have hid : ∀ c ∈ sups,
      (List.length ∘ fun c => List.replicate c true) c = c := by
    intro c _
    simp
  rw [List.map_congr_left hid]
  simp

/-- Field-wise extensionality for the embedded structure. -/
lemma EliasFano.ext_fields {a b : EliasFano} (h1 : a.n = b.n) (h2 : a.u = b.u)
    (h3 : a.upper_bits = b.upper_bits) (h4 : a.lower_bits = b.lower_bits)
    (h5 : a.inferiors = b.inferiors) (h6 : a.superiors = b.superiors)
    (h7 : a.superiors_prefixSums = b.superiors_prefixSums) : a = b := by
  cases a
  cases b
  simp_all

/-- Decoding `to_bytes` recovers every field except the universe, which is
re-derived as `2 ^ max(1, ℓ + h)`. -/
lemma from_to_bytes {xs : List ℕ} (hs : xs.Sorted (· ≤ ·)) (hne : xs ≠ [])
    {ef : EliasFano} (hof : EliasFano.ofList xs = some ef) :
    EliasFano.from_bytes ef.to_bytes
      = some { ef with u := 2 ^ max 1 (ef.lower_bits + ef.upper_bits) } := by
  obtain ⟨ef2, hof2, hn, hub, hu, hlb, hinf, hsup, hps⟩ := ofList_spec hs hne
  rw [hof] at hof2
  injection hof2 with heq
  subst heq
  have hnpos : 0 < xs.length := List.length_pos.mpr hne
  have hb : ∀ x ∈ xs, x >>> ef.lower_bits < 2 ^ ef.upper_bits := by
    intro x hx
    apply shiftRight_lt_of_lt
    rw [hub, hlb, hu]
    exact mem_lt_two_pow hs hne hx
  -- the decoded lower halves
  have hinferiors : (if ef.to_bytes.inferiors_byte_count ≠ 0 then
      (chunkList ef.to_bytes.lower_bits
        (natToBits (ef.to_bytes.n * ef.to_bytes.lower_bits)
          ef.to_bytes.inferiors_bits)).map bitsToNat
    else []) = ef.inferiors := by
    by_cases hl : 0 < ef.lower_bits
    · have hinfne : ef.inferiors.isEmpty = false := by
        rw [hinf, if_pos hl]
        cases xs with
        | nil => exact absurd rfl hne
        | cons a tl => rfl
      have hlen : ef.inferiors.length = xs.length := by
        rw [hinf, if_pos hl, List.length_map]
      have hproj_cnt : ef.to_bytes.inferiors_byte_count
          = max 1 ((pyBitLength (bitsToNat ((ef.inferiors.map
              (fun inf => natToBits ef.lower_bits inf)).flatten)) + 7) / 8) := by
        rw [EliasFano.to_bytes]
        simp [hinfne]
      have hproj_bits : ef.to_bytes.inferiors_bits
          = bitsToNat ((ef.inferiors.map
              (fun inf => natToBits ef.lower_bits inf)).flatten) := by
        rw [EliasFano.to_bytes]
        simp [hinfne]
      have hproj_n : ef.to_bytes.n = xs.length := by
        rw [EliasFano.to_bytes, ← hn]
      have hproj_l : ef.to_bytes.lower_bits = ef.lower_bits := rfl
      rw [if_pos (by rw [hproj_cnt]; omega), hproj_bits, hproj_n, hproj_l, ← hlen]
      apply lower_payload_roundtrip hl
      intro i hi
      rw [hinf, if_pos hl] at hi
      obtain ⟨x, _, rfl⟩ := List.mem_map.mp hi
      exact Nat.mod_lt x (Nat.pos_pow_of_pos _ (by norm_num))
    · have hempty : ef.inferiors.isEmpty = true := by
        rw [hinf, if_neg hl]
        rfl
      have hproj_cnt : ef.to_bytes.inferiors_byte_count = 0 := by
        rw [EliasFano.to_bytes]
        simp [hempty]
      rw [if_neg (by rw [hproj_cnt]; omega), hinf, if_neg hl]
  -- the decoded upper halves
  have hsuperiors : (if ef.to_bytes.superiors_byte_count ≠ 0 then
      ((splitAtFalse (natToBits (ef.to_bytes.n + 2 ^ ef.to_bytes.upper_bits)
        ef.to_bytes.superiors_bits)).map List.length).dropLast
    else []) = ef.superiors := by
    by_cases hh : 0 < ef.upper_bits
    · have hsuplen2 : ef.superiors.length = 2 ^ ef.upper_bits := by
        rw [hsup, if_neg (by omega), List.length_map, List.length_range]
      have hsupne : ef.superiors.isEmpty = false := by
        cases hsups : ef.superiors with
        | nil =>
          exfalso
          rw [hsups] at hsuplen2
          have : 0 < 2 ^ ef.upper_bits := Nat.pos_pow_of_pos _ (by norm_num)
          simp at hsuplen2
          omega
        | cons a tl => rfl
      have hsum : ef.superiors.sum = xs.length := by
        rw [hsup, if_neg (by omega)]
        exact histogram_sum hb
      have hproj_cnt : ef.to_bytes.superiors_byte_count
          = max 1 ((pyBitLength (bitsToNat ((ef.superiors.map
              (fun sup => List.replicate sup true ++ [false])).flatten)) + 7) / 8) := by
        rw [EliasFano.to_bytes]
        simp [hsupne]
      have hproj_bits : ef.to_bytes.superiors_bits
          = bitsToNat ((ef.superiors.map
              (fun sup => List.replicate sup true ++ [false])).flatten) := by
        rw [EliasFano.to_bytes]
        simp [hsupne]
      have hproj_n : ef.to_bytes.n = xs.length := by
        rw [EliasFano.to_bytes, ← hn]
      have hproj_h : ef.to_bytes.upper_bits = ef.upper_bits := rfl
      rw [if_pos (by rw [hproj_cnt]; omega), hproj_bits, hproj_n, hproj_h,
        ← hsum, ← hsuplen2]
      exact upper_payload_roundtrip ef.superiors
    · have hempty : ef.superiors.isEmpty = true := by
        rw [hsup, if_pos (by omega)]
        rfl
      have hproj_cnt : ef.to_bytes.superiors_byte_count = 0 := by
        rw [EliasFano.to_bytes]
        simp [hempty]
      rw [if_neg (by rw [hproj_cnt]; omega), hsup, if_pos (by omega)]
  -- assemble the decoded structure
  rw [EliasFano.from_bytes, if_neg (by
    rw [EliasFano.to_bytes]
    simp)]
  refine congrArg some (EliasFano.ext_fields ?_ ?_ ?_ ?_ ?_ ?_ ?_)
  · exact rfl
  · exact rfl
  · exact rfl
  · exact rfl
  · exact hinferiors
  · exact hsuperiors
  · by_cases hsc : ef.to_bytes.superiors_byte_count ≠ 0
    · show (if ef.to_bytes.superiors_byte_count ≠ 0 then _ else []) = _
      rw [if_pos hsc] at hsuperiors ⊢
      rw [hsuperiors, hps, if_pos hsc]
    · show (if ef.to_bytes.superiors_byte_count ≠ 0 then _ else []) = _
      rw [if_neg hsc] at hsuperiors ⊢
      rw [hps, ← hsuperiors]
      rfl

/-- Witness for C10 (amended) at the concrete sorted input `[0, 5]`
(where `ℓ = 2 > 0`, so iteration yields the list itself). -/
theorem C10_iter_witness :
    ∃ ef : EliasFano, EliasFano.ofList [0, 5] = some ef ∧
      (0 < ef.lower_bits → ef.iter = some [0, 5]) ∧
      (ef.lower_bits = 0 → ∃ ds, ef.iter = some ds ∧ ds.Sorted (· < ·) ∧
        ∀ v, v ∈ ds ↔ v ∈ [0, 5]) :=
  C10_iter_spec [0, 5] (by decide) (by decide)

/-- C3 counterexample: for `X = [0, 1, 1, 2, 3]` the encoder picks
`ℓ = 0`, `h = 3` while `log₂ u = 2`; `from_bytes` reconstructs the
universe as `2^(ℓ+h) = 8 ≠ 4`, so `compression_ratio` (a public query) of
the round-tripped structure differs from the original: `10/13 ≠ 15/13`. -/
theorem C3_roundtrip_counterexample :
    ∃ ef ef2, EliasFano.ofList [0, 1, 1, 2, 3] = some ef ∧
      EliasFano.from_bytes ef.to_bytes = some ef2 ∧
      ef.compression_ratio ≠ ef2.compression_ratio := by
  refine ⟨⟨5, 4, 3, 0, [], [1, 2, 1, 1, 0, 0, 0, 0], [1, 3, 4, 5, 5, 5, 5, 5]⟩,
    ⟨5, 8, 3, 0, [], [1, 2, 1, 1, 0, 0, 0, 0], [1, 3, 4, 5, 5, 5, 5, 5]⟩,
    by decide, by decide, ?_⟩
  unfold EliasFano.compression_ratio EliasFano.bit_length
  have h4 : pyLog2 4 = 2 := rfl
  have h8 : pyLog2 8 = 3 := rfl
  dsimp only
  rw [h4, h8]
  norm_num

/-- C3 (amended): for every structure built from a valid sorted sequence,
`from_bytes(to_bytes(ef))` reconstructs every field except the stored
universe, which becomes `2^max(1, ℓ+h)`; consequently `select`, `rank`,
`nextGEQ`, `nextLEQ`, `match`, `len`, iteration and `bit_length` are all
preserved, and only `compression_ratio` (the sole query reading `_u`) can
change. -/
theorem C3_roundtrip_spec (xs : List ℕ) (hne : xs ≠ [])
    (hs : xs.Sorted (· ≤ ·)) :
    ∃ ef ef2 : EliasFano, EliasFano.ofList xs = some ef ∧
      EliasFano.from_bytes ef.to_bytes = some ef2 ∧
      ef2 = { ef with u := 2 ^ max 1 (ef.lower_bits + ef.upper_bits) } ∧
      (∀ k, ef2.select k = ef.select k) ∧
      (∀ x, ef2.rank x = ef.rank x) ∧
      (∀ x, ef2.nextGEQ x = ef.nextGEQ x) ∧
      (∀ x, ef2.nextLEQ x = ef.nextLEQ x) ∧
      (∀ value ignore, ef2.match' value ignore = ef.match' value ignore) ∧
      ef2.len = ef.len ∧ ef2.iter = ef.iter ∧
      ef2.bit_length = ef.bit_length := by
  obtain ⟨ef, hof, -, -, -, -, -, -, -⟩ := ofList_spec hs hne
  exact ⟨ef, _, hof, from_to_bytes hs hne hof, rfl, fun k => rfl, fun x => rfl,
    fun x => rfl, fun x => rfl, fun value ignore => rfl, rfl, rfl, rfl⟩

/-- Witness for C3 (amended) at the concrete sorted input `[0, 2]`. -/
theorem C3_roundtrip_witness :
    ∃ ef ef2 : EliasFano, EliasFano.ofList [0, 2] = some ef ∧
      EliasFano.from_bytes ef.to_bytes = some ef2 ∧
      ef2 = { ef with u := 2 ^ max 1 (ef.lower_bits + ef.upper_bits) } ∧
      (∀ k, ef2.select k = ef.select k) ∧
      (∀ x, ef2.rank x = ef.rank x) ∧
      (∀ x, ef2.nextGEQ x = ef.nextGEQ x) ∧
      (∀ x, ef2.nextLEQ x = ef.nextLEQ x) ∧
      (∀ value ignore, ef2.match' value ignore = ef.match' value ignore) ∧
      ef2.len = ef.len ∧ ef2.iter = ef.iter ∧
      ef2.bit_length = ef.bit_length :=
  C3_roundtrip_spec [0, 2] (by decide) (by decide)

/-- C8: the claim asserts `select(i) = X[i]` and `rank(X[i]) = i` for a
`UniformlyPartitionedEliasFano` over distinct elements.  On
`X = [0, 1, 2, 3]` with `b = 2`, `select` is correct at every index, but
`rank 1` raises: `j = self._level_1.rank(...)` binds a list, and
`self._level_1.select(j)` then compares an `int` with that list
(`0 <= j`), raising `TypeError` — the method never returns an index. -/
theorem C8_upef_rank_bug :
    ∃ s : UPEF, UPEF.ofList [0, 1, 2, 3] 2 = some s ∧
      s.select 0 = some 0 ∧ s.select 1 = some 1 ∧
      s.select 2 = some 2 ∧ s.select 3 = some 3 ∧
      s.rank 1 = none :=
  ⟨_, rfl, by decide, by decide, by decide, by decide, by decide⟩

/-! ## C9: MultiLevelEliasFano select correctness -/

/-- The least natural satisfying a decidable predicate that holds somewhere. -/
lemma exists_min_nat {P : ℕ → Prop} [DecidablePred P] (hex : ∃ i, P i) :
    ∃ h0, P h0 ∧ ∀ m, m < h0 → ¬ P m :=
  ⟨Nat.find hex, Nat.find_spec hex, fun m hm => Nat.find_min hex hm⟩

/-- `groupRuns` on a cons whose tail groups to nothing. -/
lemma groupRuns_cons_nil {rest : List (ℕ × ℕ)} (p sfx : ℕ)
    (h : groupRuns rest = []) :
    groupRuns ((p, sfx) :: rest) = [(p, [sfx])] := by
  rw [groupRuns, h]

/-- `groupRuns` on a cons whose tail has a first group. -/
lemma groupRuns_cons_cons {rest : List (ℕ × ℕ)} (p sfx : ℕ) {q : ℕ}
    {g : List ℕ} {gs : List (ℕ × List ℕ)} (h : groupRuns rest = (q, g) :: gs) :
    groupRuns ((p, sfx) :: rest)
      = if p = q then (p, sfx :: g) :: gs else (p, [sfx]) :: (q, g) :: gs := by
  rw [groupRuns, h]

/-- `groupRuns` partitions the input into its runs. -/
lemma groupRuns_flatten :
    ∀ ps : List (ℕ × ℕ),
      ((groupRuns ps).map (fun g => g.2.map (fun t => (g.1, t)))).flatten = ps := by
  intro ps
  induction ps with
  | nil => rfl
  | cons hd rest ih =>
    obtain ⟨p, sfx⟩ := hd
    cases hgr : groupRuns rest with
    | nil =>
      rw [hgr] at ih
      simp only [List.map_nil, List.flatten_nil] at ih
      cases ih
      rw [groupRuns_cons_nil p sfx hgr]
      rfl
    | cons qg gs =>
      obtain ⟨q, g⟩ := qg
      rw [hgr] at ih
      rw [groupRuns_cons_cons p sfx hgr]
      by_cases hpq : p = q
      · subst hpq
        simp only [if_pos rfl, List.map_cons, List.flatten_cons] at ih ⊢
        simpa using ih
      · simp only [if_neg hpq, List.map_cons, List.flatten_cons] at ih ⊢
        simp [ih]

/-- Every run produced by `groupRuns` holds at least one suffix. -/
lemma groupRuns_snd_ne_nil :
    ∀ ps : List (ℕ × ℕ), ∀ qg ∈ groupRuns ps, qg.2 ≠ [] := by
  intro ps
  induction ps with
  | nil => intro qg h; simp [groupRuns] at h
  | cons hd rest ih =>
    obtain ⟨p, sfx⟩ := hd
    intro qg hqg
    cases hgr : groupRuns rest with
    | nil =>
      rw [groupRuns_cons_nil p sfx hgr] at hqg
      simp only [List.mem_singleton] at hqg
      subst hqg
      simp
    | cons qg0 gs =>
      obtain ⟨q, g⟩ := qg0
      rw [groupRuns_cons_cons p sfx hgr] at hqg
      by_cases hpq : p = q
      · subst hpq
        rw [if_pos rfl] at hqg
        rcases List.mem_cons.mp hqg with heq | hmem
        · subst heq; simp
        · exact ih qg (by rw [hgr]; exact List.mem_cons_of_mem _ hmem)
      · rw [if_neg hpq] at hqg
        rcases List.mem_cons.mp hqg with heq | hmem
        · subst heq; simp
        · exact ih qg (by rw [hgr]; exact hmem)

/-- Every run, re-paired with its key, is a sublist of the input. -/
lemma groupRuns_sublist :
    ∀ ps : List (ℕ × ℕ), ∀ qg ∈ groupRuns ps,
      (qg.2.map (fun t => (qg.1, t))).Sublist ps := by
  intro ps
  induction ps with
  | nil => intro qg h; simp [groupRuns] at h
  | cons hd rest ih =>
    obtain ⟨p, sfx⟩ := hd
    intro qg hqg
    cases hgr : groupRuns rest with
    | nil =>
      rw [groupRuns_cons_nil p sfx hgr] at hqg
      simp only [List.mem_singleton] at hqg
      subst hqg
      simpa using List.Sublist.cons₂ _ (List.nil_sublist rest)
    | cons qg0 gs =>
      obtain ⟨q, g⟩ := qg0
      rw [groupRuns_cons_cons p sfx hgr] at hqg
      by_cases hpq : p = q
      · subst hpq
        rw [if_pos rfl] at hqg
        rcases List.mem_cons.mp hqg with heq | hmem
        · subst heq
          simp only [List.map_cons]
          exact List.Sublist.cons₂ _
            (ih (p, g) (by rw [hgr]; exact List.mem_cons_self _ _))
        · exact (ih qg (by rw [hgr]; exact List.mem_cons_of_mem _ hmem)).cons _
      · rw [if_neg hpq] at hqg
        rcases List.mem_cons.mp hqg with heq | hmem
        · subst heq
          simpa using List.Sublist.cons₂ _ (List.nil_sublist rest)
        · exact (ih qg (by rw [hgr]; exact hmem)).cons _

/-- The run keys form a sublist of the input keys. -/
lemma groupRuns_keys_sublist :
    ∀ ps : List (ℕ × ℕ),
      ((groupRuns ps).map Prod.fst).Sublist (ps.map Prod.fst) := by
  intro ps
  induction ps with
  | nil => simp [groupRuns]
  | cons hd rest ih =>
    obtain ⟨p, sfx⟩ := hd
    cases hgr : groupRuns rest with
    | nil =>
      rw [groupRuns_cons_nil p sfx hgr]
      simp
    | cons qg0 gs =>
      obtain ⟨q, g⟩ := qg0
      rw [hgr] at ih
      rw [groupRuns_cons_cons p sfx hgr]
      by_cases hpq : p = q
      · subst hpq
        rw [if_pos rfl]
        simp only [List.map_cons] at ih ⊢
        exact List.Sublist.cons₂ _ ((List.sublist_cons_self _ _).trans ih)
      · rw [if_neg hpq]
        simp only [List.map_cons] at ih ⊢
        exact List.Sublist.cons₂ _ ih

/-- Indexing a flattened list of lists inside its `h`-th component. -/
lemma flatten_getElem? {α : Type} :
    ∀ (Ls : List (List α)) (h : ℕ) (hh : h < Ls.length) (j : ℕ),
      j < (Ls[h]).length →
      Ls.flatten[((Ls.map List.length).take h).sum + j]? = Ls[h][j]? := by
  intro Ls
  induction Ls with
  | nil => intro h hh; simp at hh
  | cons L rest ih =>
    intro h hh j hj
    cases h with
    | zero =>
      simp only [List.take_zero, List.sum_nil, Nat.zero_add, List.flatten_cons,
        List.getElem_cons_zero] at hj ⊢
      exact List.getElem?_append_left hj
    | succ h2 =>
      simp only [List.map_cons, List.take_succ_cons, List.sum_cons,
        List.flatten_cons, List.getElem_cons_succ] at hj ⊢
      rw [Nat.add_assoc, List.getElem?_append_right (by omega),
        Nat.add_sub_cancel_left]
      exact ih h2 (by simpa using hh) j hj

/-- The first running sum of `lens` that exceeds `k`, for `k` below the
total: its index, found by `findIdx?` over `accumulate`, and the bucket
bounds it certifies. -/
lemma accumulate_findIdx_min (lens : List ℕ) (k : ℕ) (hk : k < lens.sum) :
    ∃ h0, ∃ (hh : h0 < lens.length),
      (accumulate lens).findIdx? (fun c => decide (k < c)) = some h0 ∧
      (lens.take h0).sum ≤ k ∧
      k - (lens.take h0).sum < lens[h0] := by
  have hex : ∃ i, k < (lens.take (i + 1)).sum :=
    ⟨lens.length, by rw [List.take_of_length_le (by omega)]; exact hk⟩
  obtain ⟨h0, hspec, hmin⟩ := exists_min_nat hex
  have hlen : (accumulateFrom 0 lens).length = lens.length :=
    accumulateFrom_length lens 0
  have hlt : h0 < lens.length := by
    by_contra hge
    push_neg at hge
    rcases Nat.eq_zero_or_pos lens.length with hz | hpos
    · rw [List.length_eq_zero] at hz
      subst hz
      simp at hk
    · have := hmin (lens.length - 1) (by omega)
      rw [show lens.length - 1 + 1 = lens.length from by omega,
        List.take_of_length_le (by omega)] at this
      omega
  have hget : ∀ j (hj : j < lens.length),
      (accumulateFrom 0 lens)[j] = (lens.take (j + 1)).sum := by
    intro j hj
    have h1 := accumulateFrom_getElem? lens 0 j hj
    rw [List.getElem?_eq_getElem (by omega)] at h1
    have h2 := Option.some.inj h1
    omega
  have hle : (lens.take h0).sum ≤ k := by
    cases h0 with
    | zero => simp
    | succ m =>
      have hmm := hmin m (by omega)
      omega
  refine ⟨h0, hlt, ?_, hle, ?_⟩
  · unfold accumulate
    apply findIdx?_eq_some_first (by omega)
    · rw [hget _ hlt]
      simpa using hspec
    · intro j hj
      rw [hget j (by omega)]
      have := hmin j hj
      simpa using this
  · have hsucc : (lens.take (h0 + 1)).sum
        = (lens.take h0).sum + lens[h0] :=
      List.sum_take_succ _ _ hlt
    omega

/-- Recombining a split element with `+`, as `MultiLevelEliasFano.select`
does (`sup + inf`). -/
lemma shiftLeft_add_mod (x s : ℕ) : ((x >>> s) <<< s) + x % 2 ^ s = x := by
  rw [Nat.shiftLeft_eq, Nat.shiftRight_eq_div_pow, Nat.div_add_mod']

/-- Lower halves are ordered whenever the upper halves agree. -/
lemma and_mask_mono {x y s : ℕ} (hxy : x ≤ y) (hup : x >>> s = y >>> s) :
    x &&& (2 ^ s - 1) ≤ y &&& (2 ^ s - 1) := by
  rw [Nat.and_pow_two_sub_one_eq_mod, Nat.and_pow_two_sub_one_eq_mod]
  simp only [Nat.shiftRight_eq_div_pow] at hup
  have hx := Nat.div_add_mod x (2 ^ s)
  have hy := Nat.div_add_mod y (2 ^ s)
  have hprod : 2 ^ s * (x / 2 ^ s) = 2 ^ s * (y / 2 ^ s) := by rw [hup]
  omega

/-- `MLEF.ofList` on the last level (`depth = 1` or `n ≤ 1`). -/
lemma MLEF_ofList_base {xs : List ℕ} {last : ℕ} (hl : xs.getLast? = some last)
    {depth : ℕ} (hd : depth ≠ 0) (hnb : ¬ (1 < depth ∧ 1 < xs.length)) :
    MLEF.ofList xs depth =
      match EliasFano.ofList xs with
      | none => none
      | some level_1 =>
        some (.mk xs.length (2 ^ max 1 (pyBitLength last)) depth
          (max 1 (pyBitLength last) / depth) level_1 []) := by
  rw [MLEF.ofList, hl]
  simp only [if_neg hd, if_neg hnb]

/-- `MLEF.ofList` on inner levels (`depth > 1` and `n > 1`). -/
lemma MLEF_ofList_rec {xs : List ℕ} {last : ℕ} (hl : xs.getLast? = some last)
    {depth : ℕ} (hcond : 1 < depth ∧ 1 < xs.length) (W b : ℕ)
    (hW : W = max 1 (pyBitLength last)) (hb : b = W / depth) :
    MLEF.ofList xs depth =
      match MLEF.buildChildren (depth - 1) b
          (groupRuns (xs.map (fun x => (x >>> (W - b), x &&& (2 ^ (W - b) - 1))))) with
      | none => none
      | some level_2 =>
        match EliasFano.ofList ((groupRuns (xs.map (fun x =>
            (x >>> (W - b), x &&& (2 ^ (W - b) - 1))))).map (fun g => g.1)) with
        | none => none
        | some level_1 => some (.mk xs.length (2 ^ W) depth b level_1 level_2) := by
  subst hW
  subst hb
  have hd0 : depth ≠ 0 := by omega
  rw [MLEF.ofList, hl]
  simp only [if_neg hd0, if_pos hcond]

/-- `MLEF.buildChildren` on the empty group list. -/
lemma buildChildren_nil (childDepth bexp : ℕ) :
    MLEF.buildChildren childDepth bexp [] = some [] := by
  rw [MLEF.buildChildren]

/-- `MLEF.buildChildren` on a cons. -/
lemma buildChildren_cons (childDepth bexp p : ℕ) (sfx : List ℕ)
    (rest : List (ℕ × List ℕ)) :
    MLEF.buildChildren childDepth bexp ((p, sfx) :: rest)
      = match (if 2 ^ bexp < sfx.length then (MLEF.ofList sfx childDepth).map .inr
            else (EliasFano.ofList sfx).map .inl),
          MLEF.buildChildren childDepth bexp rest with
        | some c, some cs => some ((p, c) :: cs)
        | _, _ => none := by
  rw [MLEF.buildChildren]

/-- `MLEF.select` with an empty second level delegates to the first. -/
lemma MLEF_select_empty (nn u d b : ℕ) (l1 : EliasFano) (k : ℕ) :
    MLEF.select (MLEF.mk nn u d b l1 []) k = l1.select k := by
  rw [MLEF.select]
  simp

/-- `MLEF.childSelectAt` equations. -/
lemma childSelectAt_zero_inl (p : ℕ) (ef : EliasFano)
    (rest : List (ℕ × (EliasFano ⊕ MLEF))) (off : ℕ) :
    MLEF.childSelectAt ((p, Sum.inl ef) :: rest) 0 off = ef.select off := by
  rw [MLEF.childSelectAt]

/-- `MLEF.childSelectAt` equations. -/
lemma childSelectAt_zero_inr (p : ℕ) (m : MLEF)
    (rest : List (ℕ × (EliasFano ⊕ MLEF))) (off : ℕ) :
    MLEF.childSelectAt ((p, Sum.inr m) :: rest) 0 off = MLEF.select m off := by
  rw [MLEF.childSelectAt]

/-- `MLEF.childSelectAt` equations. -/
lemma childSelectAt_succ (pc : ℕ × (EliasFano ⊕ MLEF))
    (rest : List (ℕ × (EliasFano ⊕ MLEF))) (h off : ℕ) :
    MLEF.childSelectAt (pc :: rest) (h + 1) off
      = MLEF.childSelectAt rest h off := by
  rcases pc with ⟨p, c⟩
  cases c with
  | inl ef => rw [MLEF.childSelectAt]
  | inr m => rw [MLEF.childSelectAt]

/-- `MLEF.buildChildren` succeeds on sorted non-empty groups, its children
report the group sizes through `MLChildLen`, and positional child lookup
selects within each group; the behaviour of recursive children is supplied
through `hchild`. -/
lemma buildChildren_spec (childDepth bexp : ℕ)
    (hchild : ∀ ys : List ℕ, ys ≠ [] → ys.Sorted (· ≤ ·) →
      ∃ m : MLEF, MLEF.ofList ys childDepth = some m ∧ m.n = ys.length ∧
        ∀ k (hk : k < ys.length), m.select k = some (ys[k])) :
    ∀ groups : List (ℕ × List ℕ),
      (∀ g ∈ groups, g.2 ≠ [] ∧ g.2.Sorted (· ≤ ·)) →
      ∃ cs, MLEF.buildChildren childDepth bexp groups = some cs ∧
        cs.map (fun pc => MLChildLen pc.2) = groups.map (fun g => g.2.length) ∧
        ∀ j (hj : j < groups.length) (off : ℕ) (ho : off < (groups[j].2).length),
          MLEF.childSelectAt cs j off = some ((groups[j].2)[off]) := by
  intro groups
  induction groups with
  | nil =>
    intro hmem
    refine ⟨[], buildChildren_nil childDepth bexp, rfl, ?_⟩
    intro j hj
    simp at hj
  | cons g0 rest ih =>
    obtain ⟨p, sfx⟩ := g0
    intro hmem
    obtain ⟨hne0, hsort0⟩ := hmem (p, sfx) (List.mem_cons_self _ _)
    obtain ⟨cs2, hbc2, hlens2, hsel2⟩ :=
      ih (fun g hg => hmem g (List.mem_cons_of_mem _ hg))
    by_cases hbig : 2 ^ bexp < sfx.length
    · obtain ⟨m, hofm, hnm, hselm⟩ := hchild sfx hne0 hsort0
      refine ⟨(p, Sum.inr m) :: cs2, ?_, ?_, ?_⟩
      · rw [buildChildren_cons, if_pos hbig, hofm, hbc2]
        rfl
      · simp only [List.map_cons, hlens2, List.cons.injEq, and_true]
        exact hnm
      · intro j hj off ho
        cases j with
        | zero =>
          rw [childSelectAt_zero_inr]
          exact hselm off ho
        | succ j2 =>
          rw [childSelectAt_succ]
          exact hsel2 j2 (by simpa using hj) off ho
    · obtain ⟨ef, hof, hn, h3, h4, h5, h6, h7, h8⟩ := ofList_spec hsort0 hne0
      refine ⟨(p, Sum.inl ef) :: cs2, ?_, ?_, ?_⟩
      · rw [buildChildren_cons, if_neg hbig, hof, hbc2]
        rfl
      · simp only [List.map_cons, hlens2, List.cons.injEq, and_true]
        exact hn
      · intro j hj off ho
        cases j with
        | zero =>
          rw [childSelectAt_zero_inl]
          exact select_eq hsort0 hne0 hof ho
        | succ j2 =>
          rw [childSelectAt_succ]
          exact hsel2 j2 (by simpa using hj) off ho

/-- The select computation of an inner `MultiLevelEliasFano` node, given
the structural facts about its parts. -/
lemma mk_select_correct (nn u d b s : ℕ) (l1 : EliasFano)
    (cs : List (ℕ × (EliasFano ⊕ MLEF))) (groups : List (ℕ × List ℕ))
    (xs : List ℕ)
    (hflat : (groups.map (fun g => g.2.map (fun t => (g.1, t)))).flatten
      = xs.map (fun x => (x >>> s, x &&& (2 ^ s - 1))))
    (hlensum : (groups.map (fun g => g.2.length)).sum = xs.length)
    (hlens : cs.map (fun pc => MLChildLen pc.2) = groups.map (fun g => g.2.length))
    (hcsne : cs ≠ [])
    (hsel1 : ∀ h (hh : h < groups.length), l1.select h = some ((groups[h]).1))
    (hcssel : ∀ j (hj : j < groups.length) (off : ℕ) (ho : off < (groups[j].2).length),
      MLEF.childSelectAt cs j off = some ((groups[j].2)[off]))
    (hshift : pyLog2 u - b = s)
    (k : ℕ) (hk : k < xs.length) :
    MLEF.select (MLEF.mk nn u d b l1 cs) k = some (xs[k]) := by
  have hem : ¬ cs.isEmpty = true := by
    cases cs with
    | nil => exact absurd rfl hcsne
    | cons c cs2 => simp
  obtain ⟨h0, hh0, hfind, hle, hlt2⟩ :=
    accumulate_findIdx_min (groups.map (fun g => g.2.length)) k
      (by rw [hlensum]; exact hk)
  have hh0g : h0 < groups.length := by simpa using hh0
  have hlenh0 : (groups.map (fun g => g.2.length))[h0] = (groups[h0].2).length := by
    rw [List.getElem_map]
  have hoffb : k - ((groups.map (fun g => g.2.length)).take h0).sum
      < (groups[h0].2).length := by
    rw [← hlenh0]
    exact hlt2
  rw [MLEF.select]
  simp only [if_pos hem, hlens, hfind,
    hcssel h0 hh0g (k - ((groups.map (fun g => g.2.length)).take h0).sum) hoffb,
    hsel1 h0 hh0g]
  rw [hshift]
  -- identify the selected parts through the flatten decomposition
  have hLs : (groups.map (fun g => g.2.map (fun t => (g.1, t)))).map List.length
      = groups.map (fun g => g.2.length) := by
    rw [List.map_map]
    exact List.map_congr_left (fun g hg => by simp)
  have hflati := flatten_getElem?
    (groups.map (fun g => g.2.map (fun t => (g.1, t)))) h0
    (by simpa using hh0g)
    (k - ((groups.map (fun g => g.2.length)).take h0).sum)
    (by simp only [List.getElem_map, List.length_map]; exact hoffb)
  rw [hLs] at hflati
  rw [show ((groups.map (fun g => g.2.length)).take h0).sum
      + (k - ((groups.map (fun g => g.2.length)).take h0).sum) = k from by omega,
    hflat] at hflati
  simp only [List.getElem?_map, List.getElem?_eq_getElem hk, Option.map_some',
    List.getElem_map, List.getElem?_eq_getElem hoffb, Option.some.injEq,
    Prod.mk.injEq] at hflati
  obtain ⟨hup, hlow⟩ := hflati
  rw [← hup, ← hlow, Nat.and_pow_two_sub_one_eq_mod]
  exact congrArg some (shiftLeft_add_mod xs[k] s)

/-- Full correctness of `MLEF.ofList` and `MLEF.select` for every depth
`d ≥ 1`: construction succeeds on sorted non-empty input, records the
length, and `select` recovers every element. -/
lemma mlef_ofList_select :
    ∀ d : ℕ, 1 ≤ d → ∀ xs : List ℕ, xs ≠ [] → xs.Sorted (· ≤ ·) →
      ∃ m : MLEF, MLEF.ofList xs d = some m ∧ m.n = xs.length ∧
        ∀ k (hk : k < xs.length), m.select k = some (xs[k]) := by
  intro d
  induction d using Nat.strong_induction_on with
  | _ d IH =>
    intro hd1 xs hne hs
    have hlast : xs.getLast? = some (xs.getLast hne) :=
      List.getLast?_eq_getLast xs hne
    by_cases hcond : 1 < d ∧ 1 < xs.length
    · obtain ⟨hd2, hlen2⟩ := hcond
      set W := max 1 (pyBitLength (xs.getLast hne)) with hWdef
      set b := W / d with hbdef
      set s := W - b with hsdef
      set pairs := xs.map (fun x => (x >>> s, x &&& (2 ^ s - 1))) with hpairsdef
      set groups := groupRuns pairs with hgroupsdef
      have hpp : pairs.Pairwise
          (fun a c => a.1 ≤ c.1 ∧ (a.1 = c.1 → a.2 ≤ c.2)) := by
        rw [hpairsdef, List.pairwise_map]
        exact hs.imp (fun hxy => ⟨shiftRight_le_shiftRight s hxy,
          fun hupeq => and_mask_mono hxy hupeq⟩)
      have hflat0 : (groups.map (fun g => g.2.map (fun t => (g.1, t)))).flatten
          = pairs := by
        rw [hgroupsdef]
        exact groupRuns_flatten pairs
      have hpne : pairs ≠ [] := by
        rw [hpairsdef]
        intro hmape
        apply hne
        cases xs with
        | nil => rfl
        | cons a t => simp at hmape
      have hgne : groups ≠ [] := by
        intro h
        rw [h] at hflat0
        simp only [List.map_nil, List.flatten_nil] at hflat0
        exact hpne hflat0.symm
      have hgmem : ∀ g ∈ groups, g.2 ≠ [] ∧ g.2.Sorted (· ≤ ·) := by
        intro g hg
        refine ⟨groupRuns_snd_ne_nil pairs g (by rw [← hgroupsdef]; exact hg), ?_⟩
        have hsub := groupRuns_sublist pairs g (by rw [← hgroupsdef]; exact hg)
        have hpw := List.Pairwise.sublist hsub hpp
        rw [List.pairwise_map] at hpw
        exact hpw.imp (fun hab => hab.2 rfl)
      have hkeys : (groups.map Prod.fst).Sorted (· ≤ ·) := by
        have hxs : (pairs.map Prod.fst).Pairwise (· ≤ ·) := by
          rw [hpairsdef, List.map_map, List.pairwise_map]
          exact hs.imp (fun hxy => shiftRight_le_shiftRight s hxy)
        exact List.Pairwise.sublist
          (by rw [hgroupsdef]; exact groupRuns_keys_sublist pairs) hxs
      have hlensum : (groups.map (fun g => g.2.length)).sum = xs.length := by
        have hlen := congrArg List.length hflat0
        rw [List.length_flatten, List.map_map, hpairsdef, List.length_map] at hlen
        rw [← hlen]
        congr 1
        apply List.map_congr_left
        intro g hg
        simp
      have hchild : ∀ ys : List ℕ, ys ≠ [] → ys.Sorted (· ≤ ·) →
          ∃ m : MLEF, MLEF.ofList ys (d - 1) = some m ∧ m.n = ys.length ∧
            ∀ k (hk : k < ys.length), m.select k = some (ys[k]) :=
        fun ys hyne hys => IH (d - 1) (by omega) (by omega) ys hyne hys
      obtain ⟨cs, hbc, hlens, hcssel⟩ :=
        buildChildren_spec (d - 1) b hchild groups hgmem
      have hcsne : cs ≠ [] := by
        intro h
        rw [h] at hlens
        have hL := congrArg List.length hlens
        simp only [List.length_map, List.length_nil] at hL
        exact hgne (List.length_eq_zero.mp hL.symm)
      have hPne : (groups.map Prod.fst) ≠ [] := by
        intro h
        have hL := congrArg List.length h
        simp only [List.length_map, List.length_nil] at hL
        exact hgne (List.length_eq_zero.mp hL)
      obtain ⟨l1, hofP0, hnP, hr3, hr4, hr5, hr6, hr7, hr8⟩ := ofList_spec hkeys hPne
      have hofP : EliasFano.ofList (groups.map (fun g => g.1)) = some l1 := hofP0
      have hsel1 : ∀ h (hh : h < groups.length),
          l1.select h = some ((groups[h]).1) := by
        intro h hh
        have hsel := select_eq hkeys hPne hofP0
          (show h < (groups.map Prod.fst).length by simpa using hh)
        rw [List.getElem_map] at hsel
        exact hsel
      refine ⟨MLEF.mk xs.length (2 ^ W) d b l1 cs, ?_, rfl, ?_⟩
      · rw [MLEF_ofList_rec hlast ⟨hd2, hlen2⟩ W b hWdef hbdef, ← hsdef,
          ← hpairsdef, ← hgroupsdef, hbc, hofP]
      · intro k hk
        refine mk_select_correct xs.length (2 ^ W) d b s l1 cs groups xs ?_
          hlensum hlens hcsne hsel1 hcssel ?_ k hk
        · rw [← hpairsdef]
          exact hflat0
        · rw [pyLog2_eq, Nat.log_pow (by norm_num : 1 < 2), hsdef]
    · obtain ⟨ef, hof, hn, h3, h4, h5, h6, h7, h8⟩ := ofList_spec hs hne
      refine ⟨MLEF.mk xs.length (2 ^ max 1 (pyBitLength (xs.getLast hne))) d
        (max 1 (pyBitLength (xs.getLast hne)) / d) ef [], ?_, rfl, ?_⟩
      · rw [MLEF_ofList_base hlast (by omega) hcond, hof]
      · intro k hk
        rw [MLEF_select_empty]
        exact select_eq hs hne hof hk

/-- C9: for every non-empty sorted sequence `X` of length `n` with `W` the
bit length of its maximum element, and every depth `d ∈ [1, W]`, the
`MultiLevelEliasFano` built from `X` with depth `d` satisfies
`select(i) = X[i]` for every `i ∈ [0, n)`. -/
theorem C9_mlef_select_spec (xs : List ℕ) (hne : xs ≠ [])
    (hs : xs.Sorted (· ≤ ·)) (d : ℕ) (hd1 : 1 ≤ d)
    (hdW : d ≤ pyBitLength (xs.getLast hne)) :
    ∃ m : MLEF, MLEF.ofList xs d = some m ∧
      ∀ i (hi : i < xs.length), m.select i = some (xs[i]) := by
  obtain ⟨m, hof, hn, hsel⟩ := mlef_ofList_select d hd1 xs hne hs
  exact ⟨m, hof, hsel⟩

/-- Witness for C9 at `X = [0, 1, 2, 7, 8, 15, 16, 31]` (`W = 5`) and
depth `d = 2`. -/
theorem C9_mlef_select_witness :
    ∃ m : MLEF, MLEF.ofList [0, 1, 2, 7, 8, 15, 16, 31] 2 = some m ∧
      ∀ i (hi : i < [0, 1, 2, 7, 8, 15, 16, 31].length),
        m.select i = some ([0, 1, 2, 7, 8, 15, 16, 31][i]) :=
  C9_mlef_select_spec [0, 1, 2, 7, 8, 15, 16, 31] (by decide) (by decide) 2
    (by decide) (by decide)

end PyEF
